import Mathlib

/-!
# img2sound: synthesis pipeline and WAV encoder

A shallow embedding of `img2sound.go` (synthesis, intensity extraction,
scanline row, slider update) and `wav/wav-writer.go` (container encoder).

Conventions of the embedding:

* Go `float64` values are elements of an ordered field `K`; the theorems take
  `K = ℝ`.  The functions of Go's `math` package that the program calls are
  collected in `MathOps`, whose real interpretation is `realMath`.
* Sample values are exact reals.  Where a `float64` result is converted to an
  integer (`totalSamples`, the 16-bit sample of the encoder) the integer
  depends on the rounding of the arithmetic, so there every operation is
  rounded to `float64` by `roundFloat64` (53-bit significand, ties to even;
  the exponent range is not bounded).
* Go `int` values that count or index elements of a slice are unbounded
  `Int`/`Nat`; the arithmetic on image rows and slider coordinates wraps to
  64 bits (`wrapInt`); the fixed-width conversions of the encoder (`uint32`,
  `uint16`, `int16`) reduce modulo `2^w` explicitly.
* A run-time panic (negative `make` length, integer division by zero, index
  out of range) is the result `none`.
* A file is the list of bytes written to it, each byte a `Nat` below 256.
-/

namespace Img2Sound

/-! ## Numeric primitives -/

/-- Functions of Go's `math` package used by the synthesizer. -/
structure MathOps (K : Type) where
  /-- Go `math.Sin`. -/
  sin : K → K
  /-- Go `math.Tanh`. -/
  tanh : K → K
  /-- Go `math.Pow`. -/
  pow : K → K → K
  /-- Go `math.Pi`. -/
  pi : K

/-- Real-number interpretation of the `math` package. -/
noncomputable def realMath : MathOps ℝ where
  sin := Real.sin
  tanh := Real.tanh
  pow := fun x y => x ^ y
  pi := Real.pi

/-- Go conversion `int(x)` of a float: the fractional part is discarded
(truncation toward zero). -/
def truncToInt {K : Type} [LinearOrderedField K] [FloorRing K] (x : K) : Int :=
  if 0 ≤ x then ⌊x⌋ else ⌈x⌉

/-- Nearest integer to `x`, ties to the even one. -/
def roundHalfEven {K : Type} [LinearOrderedField K] [FloorRing K] (x : K) : Int :=
  let f := ⌊x⌋
  let r := x - (f : K)
  if r < 1 / 2 then f
  else if 1 / 2 < r then f + 1
  else if f % 2 = 0 then f else f + 1

/-- Rounding of the exact result of a `float64` operation to the nearest
`float64`: the value is scaled so that its significand has 53 bits, rounded
to the nearest integer (ties to even) and scaled back. -/
def roundFloat64 {K : Type} [LinearOrderedField K] [FloorRing K] (x : K) : K :=
  if x = 0 then 0
  else
    let e : Int := Int.log 2 |x| - 52
    (roundHalfEven (x / (2 : K) ^ e) : K) * (2 : K) ^ e

/-- Go `int` arithmetic result `x` on a 64-bit platform: two's complement
wrap-around into `[-2^63, 2^63)`. -/
def wrapInt (x : Int) : Int := (x + 2 ^ 63) % 2 ^ 64 - 2 ^ 63

/-- Constant `sampleRate` of `img2sound.go`. -/
def sampleRate : Nat := 44100

/-- Index sequence of the Go loop `for i := start; i < n; i += step`, for a
positive step. -/
def forIndices (n step : Nat) (hstep : 0 < step) (start : Nat) : List Nat :=
  if start < n then start :: forIndices n step hstep (start + step) else []
termination_by n - start
decreasing_by omega

/-! ## Synthesis (`img2sound.go`) -/

section Synthesis

variable {K : Type} [LinearOrderedField K]

/-- Go `generateHarmonicWave`: fundamental plus three harmonics. -/
def generateHarmonicWave (m : MathOps K) (frequency amplitude t : K) : K :=
  let fundamental := amplitude * m.sin (2 * m.pi * frequency * t)
  let firstHarmonic := 0.5 * amplitude * m.sin (4 * m.pi * frequency * t)
  let secondHarmonic := 0.25 * amplitude * m.sin (6 * m.pi * frequency * t)
  let thirdHarmonic := 0.125 * amplitude * m.sin (8 * m.pi * frequency * t)
  fundamental + firstHarmonic + secondHarmonic + thirdHarmonic

/-- Go `applyEnvelope`: the four-segment gain applied to `sample`. -/
def applyEnvelope (sample position duration : K) : K :=
  let attackTime : K := 0.1
  let decayTime : K := 0.2
  let sustainLevel : K := 0.7
  let releaseTime : K := 0.2
  let normalized := position / duration
  if normalized < attackTime then
    sample * (normalized / attackTime)
  else if normalized < attackTime + decayTime then
    let decayPosition := (normalized - attackTime) / decayTime
    sample * (1.0 - (1.0 - sustainLevel) * decayPosition)
  else if normalized > 1.0 - releaseTime then
    let releasePosition := (normalized - (1.0 - releaseTime)) / releaseTime
    sample * (sustainLevel * (1.0 - releasePosition))
  else
    sample * sustainLevel

/-- Step of the note loop (`img2sound.go` lines 156-159): `len / density`
raised to 1 when it is below 1.  `density` is non-zero here. -/
def noteSpacing (len : Nat) (density : Int) : Int :=
  let noteSpacing := Int.tdiv (len : Int) density
  if noteSpacing < 1 then 1 else noteSpacing

/-- Scanline positions visited by the note loop of `generateMusicalSamples`
(line 161): `i = 0, noteSpacing, 2 * noteSpacing, ...` below `len`. -/
def notePositions (len : Nat) (density : Int) : List Nat :=
  forIndices len (noteSpacing len density).toNat
    (by unfold noteSpacing; simp only; split <;> omega) 0

/-- Pitch of the note at scanline position `i` (`img2sound.go` lines
167-168). -/
def noteFrequency (m : MathOps K) (baseFreq : K) (i len : Nat) : K :=
  let noteOffset := (i : K) / (len : K) * 24
  baseFreq * m.pow 2 (noteOffset / 12.0)

/-- Value added to `samples[j]` by one note (`img2sound.go` lines 171-173). -/
def noteSample (m : MathOps K) (frequency amplitude durationSec : K)
    (totalSamples j : Nat) : K :=
  let t := (j : K) / (sampleRate : K)
  let harmonicWave := generateHarmonicWave m frequency amplitude t
  applyEnvelope harmonicWave ((j : K) / (totalSamples : K)) durationSec

/-- Go statement `samples[j] += v`; `none` when `j` is out of range. -/
def addAt (samples : List K) (j : Nat) (v : K) : Option (List K) :=
  match samples[j]? with
  | none => none
  | some s => some (samples.set j (s + v))

/-- Inner loop of `generateMusicalSamples` (lines 170-175): mixes one note
into every sample. -/
def mixNote (m : MathOps K) (frequency amplitude durationSec : K)
    (totalSamples : Nat) (samples : List K) : Option (List K) :=
  (forIndices totalSamples 1 Nat.one_pos 0).foldlM
    (fun acc j => addAt acc j (noteSample m frequency amplitude durationSec totalSamples j))
    samples

/-- Body of the note loop of `generateMusicalSamples` (lines 162-175) at
position `i`. -/
def noteBody (m : MathOps K) (intensities : List K) (durationSec baseFreq : K)
    (totalSamples : Nat) (samples : List K) (i : Nat) : Option (List K) :=
  match intensities[i]? with
  | none => none
  | some amplitude =>
    if amplitude < 0.05 then
      some samples
    else
      let frequency := noteFrequency m baseFreq i intensities.length
      mixNote m frequency amplitude durationSec totalSamples samples

/-- Peak search of `generateMusicalSamples` (lines 178-183). -/
def maxAmplitude (samples : List K) : K :=
  samples.foldl (fun mx s => if |s| > mx then |s| else mx) 0.0

/-- Normalisation of `generateMusicalSamples` (lines 185-190). -/
def normalise (m : MathOps K) (samples : List K) : List K :=
  let maxAmp := maxAmplitude samples
  if maxAmp > 0 then
    samples.map (fun s => m.tanh (s / maxAmp))
  else
    samples

/-- Go `durationSec` (line 152): `float64(durationMs) / 1000.0`, the
conversion and the quotient rounded to `float64`. -/
def durationSecOf (K : Type) [LinearOrderedField K] [FloorRing K] (durationMs : Int) : K :=
  roundFloat64 (roundFloat64 (durationMs : K) / 1000.0)

/-- Go `totalSamples` (line 153): `int(float64(sampleRate) * durationSec)`,
the product rounded to `float64` and then truncated. -/
def totalSamplesOf (K : Type) [LinearOrderedField K] [FloorRing K] (durationMs : Int) :
    Int :=
  truncToInt (roundFloat64 ((sampleRate : K) * durationSecOf K durationMs))

/-- Buffer of `generateMusicalSamples` after the note loop and before
normalisation (lines 152-176). -/
def mixedSamples [FloorRing K] (m : MathOps K) (intensities : List K) (durationMs : Int)
    (baseFreq : K) (density : Int) : Option (List K) :=
  let durationSec : K := durationSecOf K durationMs
  let totalSamples : Int := totalSamplesOf K durationMs
  if totalSamples < 0 then
    none
  else
    let samples : List K := List.replicate totalSamples.toNat 0
    if density = 0 then
      none
    else
      (notePositions intensities.length density).foldlM
        (noteBody m intensities durationSec baseFreq totalSamples.toNat)
        samples

/-- Go `generateMusicalSamples`. -/
def generateMusicalSamples [FloorRing K] (m : MathOps K) (intensities : List K) (durationMs : Int)
    (baseFreq : K) (density : Int) : Option (List K) :=
  (mixedSamples m intensities durationMs baseFreq density).map (normalise m)

end Synthesis

/-! ## Container encoder (`wav/wav-writer.go`) -/

/-- Go `wav.Writer`. -/
structure Writer where
  SampleRate : Int
  NumChannels : Int
  BitsPerSample : Int

/-- Go `wav.NewWriter`: mono, 16 bits per sample. -/
def NewWriter (sampleRate : Int) : Writer :=
  { SampleRate := sampleRate, NumChannels := 1, BitsPerSample := 16 }

/-- Go conversion `uint32(x)` of an `int`. -/
def uint32 (x : Int) : Nat := (x % 2 ^ 32).toNat

/-- Go conversion `uint16(x)` of an `int`. -/
def uint16 (x : Int) : Nat := (x % 2 ^ 16).toNat

/-- Go conversion to `int16` of an integer value: wraps into
`[-32768, 32767]`. -/
def int16 (x : Int) : Int := (x + 2 ^ 15) % 2 ^ 16 - 2 ^ 15

/-- Bytes of `binary.Write(file, binary.LittleEndian, v)` for a `uint32`. -/
def putUint32LE (v : Nat) : List Nat :=
  [v % 256, v / 2 ^ 8 % 256, v / 2 ^ 16 % 256, v / 2 ^ 24 % 256]

/-- Bytes of `binary.Write(file, binary.LittleEndian, v)` for a `uint16`. -/
def putUint16LE (v : Nat) : List Nat :=
  [v % 256, v / 2 ^ 8 % 256]

/-- Bytes of `binary.Write(file, binary.LittleEndian, v)` for an `int16`:
the two's complement bit pattern, low byte first. -/
def putInt16LE (v : Int) : List Nat :=
  putUint16LE (uint16 v)

/-- Go `[]byte(s)` for an ASCII string literal. -/
def asciiBytes (s : String) : List Nat :=
  s.toList.map Char.toNat

section Encoder

variable {K : Type} [LinearOrderedField K]

/-- Clamp of `WriteFile` (lines 88-92). -/
def clampSample (sample : K) : K :=
  if sample > 1.0 then 1.0
  else if sample < -1.0 then -1.0
  else sample

/-- Integer value of a sample in `WriteFile` (lines 88-95), before it is
narrowed to `int16`: the clamped sample times `32767`, the product rounded
to `float64` and then truncated. -/
def sampleToInt [FloorRing K] (sample : K) : Int :=
  truncToInt (roundFloat64 (clampSample sample * 32767))

/-- Bytes that `WriteFile` writes for its 44-byte header (lines 35-83). -/
def Writer.header (w : Writer) (dataLen : Nat) : List Nat :=
  let byteRate := Int.tdiv (w.SampleRate * w.NumChannels * w.BitsPerSample) 8
  let blockAlign := Int.tdiv (w.NumChannels * w.BitsPerSample) 8
  let dataSize := Int.tdiv ((dataLen : Int) * w.BitsPerSample) 8
  let chunkSize := 36 + dataSize
  asciiBytes "RIFF" ++ putUint32LE (uint32 chunkSize) ++ asciiBytes "WAVE"
    ++ asciiBytes "fmt " ++ putUint32LE (uint32 16) ++ putUint16LE (uint16 1)
    ++ putUint16LE (uint16 w.NumChannels) ++ putUint32LE (uint32 w.SampleRate)
    ++ putUint32LE (uint32 byteRate) ++ putUint16LE (uint16 blockAlign)
    ++ putUint16LE (uint16 w.BitsPerSample)
    ++ asciiBytes "data" ++ putUint32LE (uint32 dataSize)

/-- Go `Writer.WriteFile` when every write succeeds: the bytes of the file,
the header followed by the samples appended one after the other. -/
def Writer.WriteFile [FloorRing K] (w : Writer) (data : List K) : List Nat :=
  data.foldl (fun file sample => file ++ putInt16LE (int16 (sampleToInt sample)))
    (w.header data.length)

end Encoder

/-! ## Decoders used to state the properties of the encoder -/

/-- Value of a little-endian byte sequence. -/
def decodeLE : List Nat → Nat
  | [] => 0
  | b :: rest => b + 256 * decodeLE rest

/-- Value of a little-endian two's complement 16-bit pair. -/
def decodeInt16LE (lo hi : Nat) : Int :=
  let u := lo + 256 * hi
  if u < 32768 then (u : Int) else (u : Int) - 65536

/-- Decodes a payload as consecutive little-endian signed 16-bit values. -/
def decodeInt16s : List Nat → List Int
  | lo :: hi :: rest => decodeInt16LE lo hi :: decodeInt16s rest
  | _ => []

/-- Bytes `off .. off + len - 1` of a file. -/
def field (file : List Nat) (off len : Nat) : List Nat :=
  (file.drop off).take len

/-! ## Envelope gain, image access and controls (`img2sound.go`) -/

section Controls

variable {K : Type} [LinearOrderedField K]

/-- Factor by which `applyEnvelope` multiplies its sample at the normalised
position `normalized` (`applyEnvelope` run on the unit sample with unit
duration). -/
def envelopeGain (normalized : K) : K :=
  applyEnvelope 1 normalized 1

/-- Go `image.Point`. -/
structure Point where
  X : Int
  Y : Int

/-- Go `image.Rectangle`. -/
structure Rectangle where
  Min : Point
  Max : Point

/-- Result of Go `color.Color.RGBA()`: the four `uint32` channel values. -/
structure Channels where
  r : Nat
  g : Nat
  b : Nat
  a : Nat

/-- Go `image.Image` as the program uses it: `Bounds()` and
`At(x, y).RGBA()`. -/
structure Image where
  Bounds : Rectangle
  At : Int → Int → Channels

/-- Weighted brightness of a pixel (`img2sound.go` line 143). -/
def pixelIntensity (r g b : Nat) : K :=
  ((r : K) * 0.3 + (g : K) * 0.59 + (b : K) * 0.11) / 65535

/-- Go statement `xs[idx] = v` for an `int` index; `none` when `idx` is out
of range. -/
def setAt (xs : List K) (idx : Int) (v : K) : Option (List K) :=
  if 0 ≤ idx ∧ idx < (xs.length : Int) then some (xs.set idx.toNat v) else none

/-- Values of `x` in the Go loop `for x := lo; x < hi; x++`. -/
def forInt (lo hi : Int) : List Int :=
  (forIndices (hi - lo).toNat 1 Nat.one_pos 0).map (fun (k : Nat) => lo + (k : Int))

/-- Go `imageToNoteIntensities`; `none` when `make` panics on a negative
length or an index is out of range. -/
def imageToNoteIntensities (img : Image) (row : Int) : Option (List K) :=
  let bounds := img.Bounds
  let width := bounds.Max.X - bounds.Min.X
  if width < 0 then
    none
  else
    let intensities : List K := List.replicate width.toNat 0
    (forInt bounds.Min.X bounds.Max.X).foldlM
      (fun acc (x : Int) =>
        let pixel := img.At x row
        let intensity : K := pixelIntensity pixel.r pixel.g pixel.b
        setAt acc (x - bounds.Min.X) intensity)
      intensities

/-- Synthetic image used as a concrete input: `width` by `height` pixels at
the origin, every channel at full scale. -/
def whiteImage (width height : Int) : Image :=
  { Bounds := { Min := { X := 0, Y := 0 }, Max := { X := width, Y := height } },
    At := fun _ _ => { r := 65535, g := 65535, b := 65535, a := 65535 } }

/-- Scanline row chosen by `convertImageToAudio` (line 206), in 64-bit `int`
arithmetic. -/
def middleRow (bounds : Rectangle) : Int :=
  wrapInt (bounds.Min.Y + Int.tdiv (wrapInt (bounds.Max.Y - bounds.Min.Y)) 2)

/-- Go `Slider`. -/
structure Slider (K : Type) where
  X : K
  Y : K
  Width : Int
  Value : Int
  Min : Int
  Max : Int
  Dragging : Bool

/-- Go `NewSlider`. -/
def NewSlider (x y : K) (width min max initialValue : Int) : Slider K :=
  { X := x, Y := y, Width := width, Value := initialValue, Min := min, Max := max,
    Dragging := false }

/-- The duration slider that `main` creates (line 324), with `minDuration`
and `maxDuration` written out. -/
def LengthSlider : Slider K :=
  NewSlider 100 100 200 500 5000 2000

/-- Go `clamp`. -/
def clamp (value min max : Int) : Int :=
  if value < min then min
  else if value > max then max
  else value

/-- Input state that `updateSlider` reads from the window:
`IsMouseButtonPressed(MouseButtonLeft)` and `CursorPosition()`. -/
structure Mouse where
  pressed : Bool
  mx : Int
  my : Int

/-- New value computed by the dragging branch of `updateSlider` (line 266),
in 64-bit `int` arithmetic. -/
def dragValue [FloorRing K] (s : Slider K) (mx : Int) : Int :=
  wrapInt (wrapInt (Int.tdiv
    (wrapInt (wrapInt (mx - truncToInt s.X) * wrapInt (s.Max - s.Min))) s.Width) + s.Min)

/-- Hit test of `updateSlider` (lines 256-257): the cursor is over the
slider. -/
def sliderHit [FloorRing K] (s : Slider K) (mouse : Mouse) : Bool :=
  decide (mouse.mx ≥ truncToInt s.X ∧ mouse.mx ≤ wrapInt (truncToInt s.X + s.Width) ∧
    mouse.my ≥ wrapInt (truncToInt s.Y - 10) ∧ mouse.my ≤ wrapInt (truncToInt s.Y + 10))

/-- Go `Game.updateSlider`; `none` when the division by `Width` panics. -/
def updateSlider [FloorRing K] (s : Slider K) (mouse : Mouse) : Option (Slider K) :=
  let s1 : Slider K :=
    if mouse.pressed then
      if sliderHit s mouse then
        { s with Dragging := true }
      else
        s
    else
      { s with Dragging := false }
  if s1.Dragging then
    if s1.Width = 0 then
      none
    else
      let newValue := dragValue s1 mouse.mx
      some { s1 with Value := clamp newValue s1.Min s1.Max }
  else
    some s1

/-- The calls of `updateSlider` on one slider over successive ticks of
`Game.Update`, one input state per tick. -/
def updateSliderTicks [FloorRing K] (s : Slider K) (ticks : List Mouse) :
    Option (Slider K) :=
  ticks.foldlM updateSlider s

end Controls

/-! ## Loops -/

theorem forIndices_step_one (n start : Nat) :
    forIndices n 1 Nat.one_pos start = List.range' start (n - start) := by
  generalize h : n - start = d
  induction d generalizing start with
  | zero =>
    rw [forIndices]
    have : ¬ start < n := by omega
    simp [this]
  | succ k ih =>
    rw [forIndices]
    have hlt : start < n := by omega
    rw [if_pos hlt, ih (start + 1) (by omega)]
    rfl

theorem forIndices_one_eq_range (n : Nat) :
    forIndices n 1 Nat.one_pos 0 = List.range n := by
  rw [forIndices_step_one, List.range_eq_range']
  rfl

theorem forIndices_mem (n step : Nat) (hstep : 0 < step) (start i : Nat)
    (hi : i ∈ forIndices n step hstep start) :
    i < n ∧ start ≤ i ∧ (i - start) % step = 0 := by
  generalize h : n - start = d
  induction d using Nat.strong_induction_on generalizing start with
  | _ d ih =>
    rw [forIndices] at hi
    by_cases hlt : start < n
    · rw [if_pos hlt] at hi
      rcases List.mem_cons.mp hi with rfl | hrest
      · simp [hlt]
      · have := ih (n - (start + step)) (by omega) (start + step) hrest rfl
        refine ⟨this.1, by omega, ?_⟩
        have h1 : i - start = (i - (start + step)) + step := by omega
        rw [h1, Nat.add_mod_right]
        exact this.2.2
    · rw [if_neg hlt] at hi
      simp at hi

theorem forIndices_length (n step : Nat) (hstep : 0 < step) (start : Nat) :
    (forIndices n step hstep start).length = (n - start + step - 1) / step := by
  generalize h : n - start = d
  induction d using Nat.strong_induction_on generalizing start with
  | _ d ih =>
    rw [forIndices]
    by_cases hlt : start < n
    · rw [if_pos hlt, List.length_cons,
        ih (n - (start + step)) (by omega) (start + step) rfl]
      by_cases h2 : start + step ≤ n
      · have h1 : d + step - 1 = (n - (start + step) + step - 1) + step := by omega
        rw [h1, Nat.add_div_right _ hstep]
      · have h3 : n - (start + step) + step - 1 < step := by omega
        rw [Nat.div_eq_of_lt h3]
        have h4 : d + step - 1 = (d - 1) + step := by omega
        have h5 : d - 1 < step := by omega
        rw [h4, Nat.add_div_right _ hstep, Nat.div_eq_of_lt h5]
    · rw [if_neg hlt]
      have : d + step - 1 < step := by omega
      simp [Nat.div_eq_of_lt this]

/-! ## Rounding to `float64` -/

section FloatLemmas

variable {K : Type} [LinearOrderedField K] [FloorRing K]

theorem truncToInt_of_nonneg {x : K} {z : Int} (h0 : 0 ≤ x) (h1 : (z : K) ≤ x)
    (h2 : x < (z : K) + 1) : truncToInt x = z := by
  unfold truncToInt
  rw [if_pos h0, Int.floor_eq_iff]
  exact ⟨h1, h2⟩

theorem truncToInt_of_neg {x : K} {z : Int} (h0 : x < 0) (h1 : (z : K) - 1 < x)
    (h2 : x ≤ (z : K)) : truncToInt x = z := by
  unfold truncToInt
  rw [if_neg (not_le.mpr h0), Int.ceil_eq_iff]
  exact ⟨h1, h2⟩

theorem roundHalfEven_bounds (x : K) :
    ⌊x⌋ ≤ roundHalfEven x ∧ roundHalfEven x ≤ ⌊x⌋ + 1 := by
  unfold roundHalfEven
  simp only
  split_ifs <;> omega

theorem roundHalfEven_intCast (z : Int) : roundHalfEven (z : K) = z := by
  unfold roundHalfEven
  simp

theorem roundHalfEven_abs_sub_le (x : K) : |(roundHalfEven x : K) - x| ≤ 1 / 2 := by
  have h1 := Int.floor_le x
  have h2 := Int.lt_floor_add_one x
  unfold roundHalfEven
  simp only
  rw [abs_le]
  split_ifs with ha hb hc
  · constructor <;> linarith
  · push_cast
    constructor <;> linarith
  · have hr : x - (⌊x⌋ : K) = 1 / 2 := le_antisymm (not_lt.mp hb) (not_lt.mp ha)
    constructor <;> linarith
  · have hr : x - (⌊x⌋ : K) = 1 / 2 := le_antisymm (not_lt.mp hb) (not_lt.mp ha)
    push_cast
    constructor <;> linarith

theorem roundHalfEven_eq_of {x : K} {m : Int} (h1 : (m : K) - 1 / 2 < x)
    (h2 : x < (m : K) + 1 / 2) : roundHalfEven x = m := by
  have hb := roundHalfEven_bounds x
  have ha := abs_le.mp (roundHalfEven_abs_sub_le x)
  by_contra hne
  rcases lt_or_gt_of_ne hne with hlt | hgt
  · have : (roundHalfEven x : K) ≤ (m : K) - 1 := by
      have : roundHalfEven x ≤ m - 1 := by omega
      exact_mod_cast this
    linarith [ha.1]
  · have : (m : K) + 1 ≤ (roundHalfEven x : K) := by
      have : m + 1 ≤ roundHalfEven x := by omega
      exact_mod_cast this
    linarith [ha.2]

theorem roundHalfEven_le_of_le {x : K} {n : Int} (h : x ≤ (n : K)) :
    roundHalfEven x ≤ n := by
  rcases eq_or_lt_of_le h with heq | hlt
  · rw [heq, roundHalfEven_intCast]
  · have h1 : ⌊x⌋ < n := Int.floor_lt.mpr hlt
    have := (roundHalfEven_bounds x).2
    omega

theorem le_roundHalfEven_of_le {x : K} {n : Int} (h : (n : K) ≤ x) :
    n ≤ roundHalfEven x := by
  have h1 : n ≤ ⌊x⌋ := Int.le_floor.mpr h
  have := (roundHalfEven_bounds x).1
  omega

theorem two_zpow_pos (e : Int) : (0 : K) < (2 : K) ^ e := zpow_pos (by norm_num) e

theorem half_mul_two_zpow (e : Int) : 1 / 2 * (2 : K) ^ e = (2 : K) ^ (e - 1) := by
  rw [zpow_sub₀ (by norm_num : (2 : K) ≠ 0), zpow_one]
  ring

theorem roundFloat64_zero : roundFloat64 (0 : K) = 0 := by
  unfold roundFloat64
  rw [if_pos rfl]

theorem roundFloat64_nonneg {x : K} (hx : 0 ≤ x) : 0 ≤ roundFloat64 x := by
  unfold roundFloat64
  split
  · exact le_refl 0
  · simp only
    apply mul_nonneg _ (le_of_lt (two_zpow_pos _))
    have h : ((0 : Int) : K) ≤ x / (2 : K) ^ (Int.log 2 |x| - 52) := by
      push_cast
      exact div_nonneg hx (le_of_lt (two_zpow_pos _))
    exact_mod_cast le_roundHalfEven_of_le h

/-- The binary exponent of a value below `2 ^ (k + 1)` is at most `k`. -/
theorem log_le_of_lt_zpow {x : K} (hx : x ≠ 0) {k : Int} (h : |x| < (2 : K) ^ (k + 1)) :
    Int.log 2 |x| ≤ k := by
  have hpos : 0 < |x| := abs_pos.mpr hx
  have h' : |x| < ((2 : ℕ) : K) ^ (k + 1) := by exact_mod_cast h
  have := (Int.lt_zpow_iff_log_lt (by norm_num : 1 < 2) hpos).mp h'
  omega

theorem le_log_of_zpow_le {x : K} (hx : x ≠ 0) {k : Int} (h : (2 : K) ^ k ≤ |x|) :
    k ≤ Int.log 2 |x| := by
  have hpos : 0 < |x| := abs_pos.mpr hx
  have h' : ((2 : ℕ) : K) ^ k ≤ |x| := by exact_mod_cast h
  exact (Int.zpow_le_iff_le_log (by norm_num : 1 < 2) hpos).mp h'

/-- Rounding error: at most half a unit in the last place. -/
theorem roundFloat64_abs_sub_le (x : K) {k : Int} (h : |x| < (2 : K) ^ (k + 1)) :
    |roundFloat64 x - x| ≤ (2 : K) ^ (k - 53) := by
  by_cases hx : x = 0
  · rw [hx, roundFloat64_zero, sub_zero, abs_zero]
    exact le_of_lt (two_zpow_pos _)
  · have hlog := log_le_of_lt_zpow hx h
    unfold roundFloat64
    rw [if_neg hx]
    simp only
    set e : Int := Int.log 2 |x| - 52 with he
    have hpos := two_zpow_pos (K := K) e
    have herr := roundHalfEven_abs_sub_le (x / (2 : K) ^ e)
    have hrew : (roundHalfEven (x / (2 : K) ^ e) : K) * (2 : K) ^ e - x
        = ((roundHalfEven (x / (2 : K) ^ e) : K) - x / (2 : K) ^ e) * (2 : K) ^ e := by
      field_simp
    rw [hrew, abs_mul, abs_of_pos hpos]
    have h1 : |(roundHalfEven (x / (2 : K) ^ e) : K) - x / (2 : K) ^ e| * (2 : K) ^ e
        ≤ 1 / 2 * (2 : K) ^ e := mul_le_mul_of_nonneg_right herr (le_of_lt hpos)
    have h2 : 1 / 2 * (2 : K) ^ e = (2 : K) ^ (e - 1) := half_mul_two_zpow e
    have h3 : (2 : K) ^ (e - 1) ≤ (2 : K) ^ (k - 53) :=
      zpow_le_zpow_right₀ (by norm_num) (by omega)
    linarith

/-- A value `m * 2 ^ j` of magnitude below `2 ^ (j + 53)` is a `float64`. -/
theorem roundFloat64_exact (m j : Int) (h : |(m : K) * (2 : K) ^ j| < (2 : K) ^ (j + 53)) :
    roundFloat64 ((m : K) * (2 : K) ^ j) = (m : K) * (2 : K) ^ j := by
  by_cases hx : (m : K) * (2 : K) ^ j = 0
  · rw [hx, roundFloat64_zero]
  · have hlog := log_le_of_lt_zpow hx (k := j + 52) (by
      have : j + 52 + 1 = j + 53 := by omega
      rw [this]; exact h)
    unfold roundFloat64
    rw [if_neg hx]
    simp only
    set e : Int := Int.log 2 |(m : K) * (2 : K) ^ j| - 52 with he
    have hje : 0 ≤ j - e := by omega
    have hquot : (m : K) * (2 : K) ^ j / (2 : K) ^ e = ((m * 2 ^ (j - e).toNat : Int) : K) := by
      rw [mul_div_assoc, ← zpow_sub₀ (by norm_num : (2 : K) ≠ 0)]
      push_cast
      congr 1
      rw [← zpow_natCast]
      congr 1
      omega
    rw [hquot, roundHalfEven_intCast, ← hquot]
    field_simp

/-- Evaluation of the rounding from the binade and the nearest
significand. -/
theorem roundFloat64_eq_of {x : K} (k m : Int) (hlo : (2 : K) ^ k ≤ |x|)
    (hhi : |x| < (2 : K) ^ (k + 1))
    (h1 : (m : K) - 1 / 2 < x / (2 : K) ^ (k - 52))
    (h2 : x / (2 : K) ^ (k - 52) < (m : K) + 1 / 2) :
    roundFloat64 x = (m : K) * (2 : K) ^ (k - 52) := by
  have hx : x ≠ 0 := by
    intro h0
    rw [h0, abs_zero] at hlo
    exact absurd hlo (not_le.mpr (two_zpow_pos k))
  have hlog : Int.log 2 |x| = k :=
    le_antisymm (log_le_of_lt_zpow hx hhi) (le_log_of_zpow_le hx hlo)
  unfold roundFloat64
  rw [if_neg hx]
  simp only
  rw [hlog, roundHalfEven_eq_of h1 h2]

/-- Rounding keeps a value between two integers of magnitude below
`2 ^ 53`. -/
theorem roundFloat64_mem_Icc {x : K} (a b : Int) (ha : (a : K) ≤ x) (hb : x ≤ (b : K))
    (hx : |x| < (2 : K) ^ (53 : Int)) :
    (a : K) ≤ roundFloat64 x ∧ roundFloat64 x ≤ (b : K) := by
  by_cases h0 : x = 0
  · rw [h0, roundFloat64_zero]
    rw [h0] at ha hb
    exact ⟨ha, hb⟩
  · have hlog := log_le_of_lt_zpow h0 (k := 52) (by
      have : (52 : Int) + 1 = 53 := by norm_num
      rw [this]; exact hx)
    unfold roundFloat64
    rw [if_neg h0]
    simp only
    set e : Int := Int.log 2 |x| - 52 with he
    have hpos := two_zpow_pos (K := K) e
    have hne : 0 ≤ -e := by omega
    have hscale : ∀ z : Int, (z : K) / (2 : K) ^ e = ((z * 2 ^ (-e).toNat : Int) : K) := by
      intro z
      push_cast
      rw [div_eq_mul_inv, ← zpow_neg, ← zpow_natCast]
      congr 2
      omega
    have hback : ∀ z : Int, ((z * 2 ^ (-e).toNat : Int) : K) * (2 : K) ^ e = (z : K) := by
      intro z
      rw [← hscale]
      field_simp
    constructor
    · have h1 : ((a * 2 ^ (-e).toNat : Int) : K) ≤ x / (2 : K) ^ e := by
        rw [← hscale]
        exact div_le_div_of_nonneg_right ha (le_of_lt hpos)
      have h2 : ((a * 2 ^ (-e).toNat : Int) : K) ≤ (roundHalfEven (x / (2 : K) ^ e) : K) := by
        exact_mod_cast le_roundHalfEven_of_le h1
      calc (a : K) = ((a * 2 ^ (-e).toNat : Int) : K) * (2 : K) ^ e := (hback a).symm
        _ ≤ (roundHalfEven (x / (2 : K) ^ e) : K) * (2 : K) ^ e :=
          mul_le_mul_of_nonneg_right h2 (le_of_lt hpos)
    · have h1 : x / (2 : K) ^ e ≤ ((b * 2 ^ (-e).toNat : Int) : K) := by
        rw [← hscale]
        exact div_le_div_of_nonneg_right hb (le_of_lt hpos)
      have h2 : (roundHalfEven (x / (2 : K) ^ e) : K) ≤ ((b * 2 ^ (-e).toNat : Int) : K) := by
        exact_mod_cast roundHalfEven_le_of_le h1
      calc (roundHalfEven (x / (2 : K) ^ e) : K) * (2 : K) ^ e
          ≤ ((b * 2 ^ (-e).toNat : Int) : K) * (2 : K) ^ e :=
            mul_le_mul_of_nonneg_right h2 (le_of_lt hpos)
        _ = (b : K) := hback b

theorem roundFloat64_intCast (z : Int) (hz : |(z : K)| < (2 : K) ^ (53 : Int)) :
    roundFloat64 (z : K) = (z : K) := by
  have h := roundFloat64_exact (K := K) z 0 (by simpa using hz)
  simpa using h

/-- For a duration in `[500, 5000]` the rounded `durationSec` is within
`2 ^ (-51)` of `durationMs / 1000`. -/
theorem durationSecOf_close (durationMs : Int) (hd : 500 ≤ durationMs ∧ durationMs ≤ 5000) :
    |durationSecOf K durationMs - (durationMs : K) / 1000| ≤ 1 / 2251799813685248 := by
  have hlo : (500 : K) ≤ (durationMs : K) := by exact_mod_cast hd.1
  have hhi : (durationMs : K) ≤ 5000 := by exact_mod_cast hd.2
  have hcast : roundFloat64 (durationMs : K) = (durationMs : K) := by
    apply roundFloat64_intCast
    rw [abs_of_nonneg (by linarith)]
    norm_num
    linarith
  unfold durationSecOf
  rw [hcast]
  have hq : (durationMs : K) / 1000.0 = (durationMs : K) / 1000 := by norm_num
  rw [hq]
  have hqa : |(durationMs : K) / 1000| < (2 : K) ^ ((2 : Int) + 1) := by
    rw [abs_of_nonneg (by positivity)]
    norm_num
    linarith
  have e1 := roundFloat64_abs_sub_le ((durationMs : K) / 1000) hqa
  have hz1 : (2 : K) ^ ((2 : Int) - 53) = 1 / 2251799813685248 := by norm_num
  rw [hz1] at e1
  exact e1

/-- For a duration in `[500, 5000]` the rounded `durationSec` is positive. -/
theorem durationSecOf_pos (durationMs : Int) (hd : 500 ≤ durationMs ∧ durationMs ≤ 5000) :
    0 < durationSecOf K durationMs := by
  have hlo : (500 : K) ≤ (durationMs : K) := by exact_mod_cast hd.1
  have e1 := abs_le.mp (durationSecOf_close (K := K) durationMs hd)
  linarith [e1.1]

/-- The rounded product is within `1 / 20` of `44100 * durationMs / 1000` for
a duration in `[500, 5000]`. -/
theorem product_close (durationMs : Int) (hd : 500 ≤ durationMs ∧ durationMs ≤ 5000) :
    |roundFloat64 ((sampleRate : K) * durationSecOf K durationMs)
        - (44100 : K) * (durationMs : K) / 1000| < 1 / 20 := by
  have hlo : (500 : K) ≤ (durationMs : K) := by exact_mod_cast hd.1
  have hhi : (durationMs : K) ≤ 5000 := by exact_mod_cast hd.2
  have e1 := abs_le.mp (durationSecOf_close (K := K) durationMs hd)
  set a : K := durationSecOf K durationMs with ha
  set p : K := (sampleRate : K) * a with hp
  have hsr : (sampleRate : K) = 44100 := by simp [sampleRate]
  have hpe : p = 44100 * a := by rw [hp, hsr]
  have hp1 : (0 : K) ≤ p := by rw [hpe]; linarith [e1.1]
  have hp2 : p < 262144 := by rw [hpe]; linarith [e1.2]
  have hpa : |p| < (2 : K) ^ ((17 : Int) + 1) := by
    rw [abs_of_nonneg hp1]
    norm_num
    exact hp2
  have e2 := abs_le.mp (roundFloat64_abs_sub_le p hpa)
  have hz2 : (2 : K) ^ ((17 : Int) - 53) = 1 / 68719476736 := by norm_num
  rw [hz2] at e2
  rw [abs_lt]
  constructor
  · linarith [e1.1, e2.1]
  · linarith [e1.2, e2.2]

/-- The sample count for a duration in `[500, 5000]`: the floor of
`44100 * durationMs / 1000` or one less, and the floor itself when the
duration is not a multiple of 10. -/
theorem totalSamples_bounds (durationMs : Int) (hd : 500 ≤ durationMs ∧ durationMs ≤ 5000) :
    ⌊(44100 : K) * (durationMs : K) / 1000⌋ - 1
        ≤ totalSamplesOf K durationMs
      ∧ totalSamplesOf K durationMs
          ≤ ⌊(44100 : K) * (durationMs : K) / 1000⌋
      ∧ (durationMs % 10 ≠ 0 →
          totalSamplesOf K durationMs
            = ⌊(44100 : K) * (durationMs : K) / 1000⌋)
      ∧ 22049 ≤ totalSamplesOf K durationMs := by
  have hclose := abs_lt.mp (product_close (K := K) durationMs hd)
  unfold totalSamplesOf
  set r : K := roundFloat64 ((sampleRate : K) * durationSecOf K durationMs) with hr
  have hlo : (500 : K) ≤ (durationMs : K) := by exact_mod_cast hd.1
  have hrnn : (0 : K) ≤ r := by linarith [hclose.1]
  have htrunc : truncToInt r = ⌊r⌋ := by
    unfold truncToInt
    rw [if_pos hrnn]
  rw [htrunc]
  have hsplit : 441 * durationMs = 10 * (441 * durationMs / 10) + 441 * durationMs % 10 :=
    (Int.ediv_add_emod (441 * durationMs) 10).symm
  have hk0 : 0 ≤ 441 * durationMs % 10 := Int.emod_nonneg _ (by decide)
  have hk9 : 441 * durationMs % 10 < 10 := Int.emod_lt_of_pos _ (by decide)
  set n : Int := 441 * durationMs / 10 with hn
  set k : Int := 441 * durationMs % 10 with hk
  have hx : (44100 : K) * (durationMs : K) / 1000 = (n : K) + (k : K) / 10 := by
    have h1 : ((441 * durationMs : Int) : K) = ((10 * n + k : Int) : K) := by rw [hsplit]
    push_cast at h1
    field_simp
    linarith
  have hk0' : (0 : K) ≤ (k : K) := by exact_mod_cast hk0
  have hk9' : (k : K) ≤ 9 := by
    have : k ≤ 9 := by omega
    exact_mod_cast this
  have hfloor : ⌊(44100 : K) * (durationMs : K) / 1000⌋ = n := by
    rw [hx, Int.floor_eq_iff]
    constructor <;> linarith
  rw [hfloor]
  rw [hx] at hclose
  have hn22 : 22050 ≤ n := by omega
  have hge : n - 1 ≤ ⌊r⌋ := by
    rw [Int.le_floor]
    push_cast
    linarith [hclose.1]
  have hle : ⌊r⌋ ≤ n := by
    have : ⌊r⌋ < n + 1 := by
      rw [Int.floor_lt]
      push_cast
      linarith [hclose.2]
    omega
  refine ⟨hge, hle, ?_, by omega⟩
  intro hmod
  have hk1 : 1 ≤ k := by omega
  have hk1' : (1 : K) ≤ (k : K) := by exact_mod_cast hk1
  have : n ≤ ⌊r⌋ := by
    rw [Int.le_floor]
    linarith [hclose.1]
  omega

/-- At 500 ms the sample count is `22050`. -/
theorem totalSamples_500 :
    totalSamplesOf K 500 = 22050 := by
  unfold totalSamplesOf durationSecOf
  have h1 : roundFloat64 ((500 : Int) : K) = 500 := by
    have := roundFloat64_intCast (K := K) 500 (by norm_num)
    simpa using this
  have h2 : roundFloat64 ((500 : K) / 1000.0) = 1 / 2 := by
    have := roundFloat64_exact (K := K) 1 (-1) (by rw [abs_of_pos (by positivity)]; norm_num)
    norm_num at this ⊢
    exact this
  have h3 : roundFloat64 ((sampleRate : K) * (1 / 2)) = 22050 := by
    have := roundFloat64_intCast (K := K) 22050 (by norm_num)
    simp only [sampleRate]
    norm_num at this ⊢
    exact this
  rw [h1, h2, h3]
  exact truncToInt_of_nonneg (by norm_num) (by norm_num) (by norm_num)

/-- At 570 ms the sample count is `25136`, one less than
`44100 * 570 / 1000 = 25137`. -/
theorem totalSamples_570 :
    totalSamplesOf K 570 = 25136 := by
  unfold totalSamplesOf durationSecOf
  have h1 : roundFloat64 ((570 : Int) : K) = 570 := by
    have := roundFloat64_intCast (K := K) 570 (by norm_num)
    simpa using this
  have h2 : roundFloat64 ((570 : K) / 1000.0)
      = ((5134103575202365 : Int) : K) * (2 : K) ^ ((-1 : Int) - 52) := by
    apply roundFloat64_eq_of (-1) 5134103575202365
    · rw [abs_of_pos (by norm_num)]; norm_num
    · rw [abs_of_pos (by norm_num)]; norm_num
    · norm_num
    · norm_num
  have h3 : roundFloat64 ((sampleRate : K)
      * (((5134103575202365 : Int) : K) * (2 : K) ^ ((-1 : Int) - 52)))
      = ((6909605946851327 : Int) : K) * (2 : K) ^ ((14 : Int) - 52) := by
    simp only [sampleRate]
    apply roundFloat64_eq_of 14 6909605946851327
    · rw [abs_of_pos (by norm_num)]; norm_num
    · rw [abs_of_pos (by norm_num)]; norm_num
    · norm_num
    · norm_num
  rw [h1, h2, h3]
  exact truncToInt_of_nonneg (by norm_num) (by norm_num) (by norm_num)

/-- At 500 ms `durationSec` is exactly one half. -/
theorem durationSecOf_500 : durationSecOf K 500 = ((500 : Int) : K) / 1000.0 := by
  unfold durationSecOf
  have h1 : roundFloat64 ((500 : Int) : K) = ((500 : Int) : K) :=
    roundFloat64_intCast (K := K) 500 (by norm_num)
  have h2 : roundFloat64 (((500 : Int) : K) / 1000.0) = ((500 : Int) : K) / 1000.0 := by
    have h := roundFloat64_exact (K := K) 1 (-1) (by rw [abs_of_pos (by positivity)]; norm_num)
    norm_num at h ⊢
    exact h
  rw [h1, h2]

/-- For a non-negative duration the sample count is not negative. -/
theorem totalSamplesOf_nonneg (durationMs : Int) (hd : 0 ≤ durationMs) :
    0 ≤ totalSamplesOf K durationMs := by
  have h0 : (0 : K) ≤ (durationMs : K) := by exact_mod_cast hd
  have h1 : (0 : K) ≤ durationSecOf K durationMs := by
    unfold durationSecOf
    apply roundFloat64_nonneg
    have := roundFloat64_nonneg h0
    positivity
  have h2 : (0 : K) ≤ roundFloat64 ((sampleRate : K) * durationSecOf K durationMs) := by
    apply roundFloat64_nonneg
    positivity
  unfold totalSamplesOf truncToInt
  rw [if_pos h2]
  exact Int.floor_nonneg.mpr h2

end FloatLemmas

theorem noteSpacing_toNat_pos (len : Nat) (density : Int) :
    0 < (noteSpacing len density).toNat := by
  unfold noteSpacing
  simp only
  split <;> omega

/-- Every visited position is inside the scanline, and is a multiple of the
step. -/
theorem notePositions_mem (len : Nat) (density : Int) (i : Nat)
    (hi : i ∈ notePositions len density) :
    i < len ∧ i % (noteSpacing len density).toNat = 0 := by
  have h := forIndices_mem _ _ _ 0 i hi
  exact ⟨h.1, by simpa using h.2.2⟩

theorem notePositions_length (len : Nat) (density : Int) :
    (notePositions len density).length
      = (len + (noteSpacing len density).toNat - 1) / (noteSpacing len density).toNat := by
  unfold notePositions
  rw [forIndices_length]
  rfl

section SynthesisLemmas

variable {K : Type} [LinearOrderedField K]

/-- Result of running `samples[j] += f j` for `j = 0 .. k-1`. -/
theorem foldlM_addAt_range (f : Nat → K) (samples : List K) (k : Nat)
    (hk : k ≤ samples.length) :
    (List.range k).foldlM (fun acc j => addAt acc j (f j)) samples
      = some (samples.mapIdx (fun j s => if j < k then s + f j else s)) := by
  induction k with
  | zero =>
    simp only [List.range_zero, List.foldlM_nil, Option.pure_def]
    congr 1
    apply List.ext_getElem <;> simp
  | succ k ih =>
    have hk1 : k < samples.length := hk
    rw [List.range_succ, List.foldlM_append, ih (Nat.le_of_lt hk)]
    simp only [Option.bind_eq_bind, Option.some_bind, List.foldlM_cons, List.foldlM_nil,
      addAt]
    have hget : (samples.mapIdx (fun j s => if j < k then s + f j else s))[k]?
        = some samples[k] := by
      rw [List.getElem?_eq_getElem (by simpa using hk1)]
      simp
    rw [hget]
    simp only [Option.pure_def, Option.bind_some]
    congr 1
    apply List.ext_getElem
    · simp
    · intro j h1 h2
      simp only [List.getElem_set, List.getElem_mapIdx]
      by_cases hjk : k = j
      · subst hjk
        simp
      · rw [if_neg hjk]
        by_cases hlt : j < k
        · have : j < k + 1 := by omega
          simp [hlt, this]
        · have : ¬ j < k + 1 := by omega
          simp [hlt, this]

/-- The inner loop adds the note to every sample of a buffer of the loop's
length. -/
theorem mixNote_eq (m : MathOps K) (frequency amplitude durationSec : K)
    (total : Nat) (samples : List K) (hlen : samples.length = total) :
    mixNote m frequency amplitude durationSec total samples
      = some (samples.mapIdx (fun j s =>
          s + noteSample m frequency amplitude durationSec total j)) := by
  subst hlen
  unfold mixNote
  rw [forIndices_one_eq_range, foldlM_addAt_range _ _ _ (Nat.le_refl _)]
  congr 1
  apply List.ext_getElem
  · simp
  · intro j h1 h2
    have : j < samples.length := by simpa using h1
    simp [this]

/-- One iteration of the note loop at an in-range position keeps the buffer
length. -/
theorem noteBody_length (m : MathOps K) (intensities : List K) (durationSec baseFreq : K)
    (samples : List K) (i : Nat) (hi : i < intensities.length) :
    ∃ out, noteBody m intensities durationSec baseFreq samples.length samples i = some out
      ∧ out.length = samples.length := by
  unfold noteBody
  rw [List.getElem?_eq_getElem hi]
  simp only
  split
  · exact ⟨samples, rfl, rfl⟩
  · rw [mixNote_eq _ _ _ _ _ _ rfl]
    exact ⟨_, rfl, by simp⟩

/-- The note loop over in-range positions returns a buffer of the same
length. -/
theorem foldlM_noteBody_length (m : MathOps K) (intensities : List K)
    (durationSec baseFreq : K) (total : Nat) (positions : List Nat)
    (hpos : ∀ i ∈ positions, i < intensities.length) (samples : List K)
    (hlen : samples.length = total) :
    ∃ out, positions.foldlM (noteBody m intensities durationSec baseFreq total) samples
        = some out ∧ out.length = total := by
  induction positions generalizing samples with
  | nil => exact ⟨samples, rfl, hlen⟩
  | cons i rest ih =>
    subst hlen
    obtain ⟨mid, hmid, hmidlen⟩ := noteBody_length m intensities durationSec baseFreq
      samples i (hpos i (List.mem_cons_self _ _))
    obtain ⟨out, hout, houtlen⟩ := ih (fun j hj => hpos j (List.mem_cons_of_mem _ hj))
      mid hmidlen
    refine ⟨out, ?_, houtlen⟩
    rw [List.foldlM_cons, hmid]
    exact hout

/-- When every visited intensity is below the silence gate the note loop
leaves the buffer unchanged. -/
theorem foldlM_noteBody_silent (m : MathOps K) (intensities : List K)
    (durationSec baseFreq : K) (total : Nat) (positions : List Nat)
    (hpos : ∀ i ∈ positions, i < intensities.length)
    (hquiet : ∀ a ∈ intensities, a < 0.05) (samples : List K) :
    positions.foldlM (noteBody m intensities durationSec baseFreq total) samples
      = some samples := by
  induction positions with
  | nil => rfl
  | cons i rest ih =>
    have hi : i < intensities.length := hpos i (List.mem_cons_self _ _)
    have hstep : noteBody m intensities durationSec baseFreq total samples i
        = some samples := by
      unfold noteBody
      rw [List.getElem?_eq_getElem hi]
      simp only
      rw [if_pos (hquiet _ (List.getElem_mem hi))]
    rw [List.foldlM_cons, hstep]
    exact ih (fun j hj => hpos j (List.mem_cons_of_mem _ hj))

/-! ### Peak search -/

theorem peakFold_ge_init (l : List K) (init : K) :
    init ≤ l.foldl (fun mx s => if |s| > mx then |s| else mx) init := by
  induction l generalizing init with
  | nil => exact le_refl _
  | cons a rest ih =>
    rw [List.foldl_cons]
    refine le_trans ?_ (ih _)
    split
    · exact le_of_lt (by assumption)
    · exact le_refl _

theorem peakFold_ge_mem (l : List K) (init : K) :
    ∀ s ∈ l, |s| ≤ l.foldl (fun mx s => if |s| > mx then |s| else mx) init := by
  induction l generalizing init with
  | nil => intro s hs; simp at hs
  | cons a rest ih =>
    intro s hs
    rw [List.foldl_cons]
    rcases List.mem_cons.mp hs with rfl | hrest
    · refine le_trans ?_ (peakFold_ge_init rest _)
      split
      · exact le_refl _
      · exact not_lt.mp (by assumption)
    · exact ih _ s hrest

theorem peakFold_attained (l : List K) (init : K) :
    l.foldl (fun mx s => if |s| > mx then |s| else mx) init = init
      ∨ ∃ s ∈ l, |s| = l.foldl (fun mx s => if |s| > mx then |s| else mx) init := by
  induction l generalizing init with
  | nil => exact Or.inl rfl
  | cons a rest ih =>
    rw [List.foldl_cons]
    rcases ih (if |a| > init then |a| else init) with h | ⟨s, hs, h⟩
    · rw [h]
      by_cases ha : |a| > init
      · rw [if_pos ha]
        exact Or.inr ⟨a, List.mem_cons_self _ _, rfl⟩
      · rw [if_neg ha]
        exact Or.inl rfl
    · exact Or.inr ⟨s, List.mem_cons_of_mem _ hs, h⟩

theorem maxAmplitude_nonneg (samples : List K) : 0 ≤ maxAmplitude samples := by
  have := peakFold_ge_init samples (0.0 : K)
  unfold maxAmplitude
  norm_num at this ⊢
  exact this

theorem abs_le_maxAmplitude (samples : List K) : ∀ s ∈ samples, |s| ≤ maxAmplitude samples :=
  peakFold_ge_mem samples _

theorem maxAmplitude_attained (samples : List K) (hpos : 0 < maxAmplitude samples) :
    ∃ s ∈ samples, |s| = maxAmplitude samples := by
  rcases peakFold_attained samples (0.0 : K) with h | h
  · exfalso
    unfold maxAmplitude at hpos
    rw [h] at hpos
    norm_num at hpos
  · exact h

theorem normalise_length (m : MathOps K) (samples : List K) :
    (normalise m samples).length = samples.length := by
  unfold normalise
  simp only
  split <;> simp

/-- A buffer whose peak is not positive is all zeros. -/
theorem eq_zero_of_maxAmplitude_not_pos (samples : List K)
    (h : ¬ maxAmplitude samples > 0) : ∀ s ∈ samples, s = 0 := by
  intro s hs
  have h1 := abs_le_maxAmplitude samples s hs
  have h2 : |s| ≤ 0 := le_trans h1 (not_lt.mp h)
  exact abs_eq_zero.mp (le_antisymm h2 (abs_nonneg s))

theorem maxAmplitude_eq_zero_of_all_zero (samples : List K) (h : ∀ s ∈ samples, s = 0) :
    maxAmplitude samples = 0 := by
  rcases peakFold_attained samples (0.0 : K) with h0 | ⟨s, hs, h1⟩
  · unfold maxAmplitude
    rw [h0]
    norm_num
  · unfold maxAmplitude
    rw [← h1, h s hs]
    simp

/-- For a non-negative duration and a non-zero density neither panic of the
prologue occurs: the result is that of the note loop on the zero buffer. -/
theorem mixedSamples_eq [FloorRing K] (m : MathOps K) (intensities : List K)
    (durationMs : Int) (baseFreq : K) (density : Int)
    (hd : 0 ≤ durationMs) (hden : density ≠ 0) :
    mixedSamples m intensities durationMs baseFreq density
      = (notePositions intensities.length density).foldlM
        (noteBody m intensities (durationSecOf K durationMs) baseFreq
          (totalSamplesOf K durationMs).toNat)
        (List.replicate (totalSamplesOf K durationMs).toNat 0) := by
  have hnn := totalSamplesOf_nonneg (K := K) durationMs hd
  unfold mixedSamples
  simp only [if_neg (not_lt.mpr hnn), if_neg hden]

theorem forIndices_single (n step : Nat) (hstep : 0 < step) (hpos : 0 < n)
    (hn : n ≤ step) : forIndices n step hstep 0 = [0] := by
  rw [forIndices, if_pos hpos, forIndices, if_neg (by omega)]

/-- For a non-negative duration and a non-zero density the note loop runs to
completion on a buffer of `totalSamples` samples. -/
theorem mixedSamples_some [FloorRing K] (m : MathOps K) (intensities : List K)
    (durationMs : Int) (baseFreq : K) (density : Int)
    (hd : 0 ≤ durationMs) (hden : density ≠ 0) :
    ∃ mixed, mixedSamples m intensities durationMs baseFreq density = some mixed
      ∧ generateMusicalSamples m intensities durationMs baseFreq density
          = some (normalise m mixed)
      ∧ (mixed.length : Int) = totalSamplesOf K durationMs := by
  have hnn := totalSamplesOf_nonneg (K := K) durationMs hd
  have hmix : ∃ mixed, mixedSamples m intensities durationMs baseFreq density = some mixed
      ∧ mixed.length = (totalSamplesOf K durationMs).toNat := by
    rw [mixedSamples_eq m intensities durationMs baseFreq density hd hden]
    exact foldlM_noteBody_length m intensities _ baseFreq _ _
      (fun i hi => (notePositions_mem _ _ i hi).1) _ (List.length_replicate _ _)
  obtain ⟨mixed, h1, h2⟩ := hmix
  refine ⟨mixed, h1, ?_, ?_⟩
  · unfold generateMusicalSamples
    rw [h1]
    rfl
  · rw [h2]
    exact Int.toNat_of_nonneg hnn

/-- When every intensity is below the silence gate the mixed buffer is the
zero buffer that was allocated. -/
theorem mixedSamples_silent [FloorRing K] (m : MathOps K) (intensities : List K)
    (durationMs : Int) (baseFreq : K) (density : Int)
    (hquiet : ∀ a ∈ intensities, a < 0.05) (hd : 0 ≤ durationMs) (hden : density ≠ 0) :
    mixedSamples m intensities durationMs baseFreq density
      = some (List.replicate (totalSamplesOf K durationMs).toNat 0) := by
  rw [mixedSamples_eq m intensities durationMs baseFreq density hd hden]
  exact foldlM_noteBody_silent m intensities _ baseFreq _ _
    (fun i hi => (notePositions_mem _ _ i hi).1) hquiet _

end SynthesisLemmas

/-! ## Facts about `tanh` on the reals -/

theorem tanh_lt_one (x : ℝ) : Real.tanh x < 1 := by
  rw [Real.tanh_eq_sinh_div_cosh, div_lt_one (Real.cosh_pos x)]
  exact Real.sinh_lt_cosh x

theorem neg_one_lt_tanh (x : ℝ) : -1 < Real.tanh x := by
  have h := tanh_lt_one (-x)
  rw [Real.tanh_neg] at h
  linarith

theorem tanh_le_tanh {x y : ℝ} (h : x ≤ y) : Real.tanh x ≤ Real.tanh y := by
  rw [Real.tanh_eq_sinh_div_cosh, Real.tanh_eq_sinh_div_cosh,
    div_le_div_iff₀ (Real.cosh_pos x) (Real.cosh_pos y)]
  have h1 := Real.sinh_sub x y
  have h2 : Real.sinh (x - y) ≤ 0 := by
    have h3 := (Real.sinh_le_sinh (x := x - y) (y := 0)).mpr (by linarith)
    simpa using h3
  linarith

theorem tanh_one_pos : 0 < Real.tanh 1 := by
  rw [Real.tanh_eq_sinh_div_cosh]
  exact div_pos (Real.sinh_pos_iff.mpr one_pos) (Real.cosh_pos 1)

/-- Normalised samples lie in `[-1, 1]`. -/
theorem normalise_bounded (samples : List ℝ) :
    ∀ s ∈ normalise realMath samples, -1 ≤ s ∧ s ≤ 1 := by
  intro s hs
  unfold normalise at hs
  simp only at hs
  split at hs
  · obtain ⟨a, _, rfl⟩ := List.mem_map.mp hs
    exact ⟨le_of_lt (neg_one_lt_tanh _), le_of_lt (tanh_lt_one _)⟩
  · rename_i hmax
    rw [eq_zero_of_maxAmplitude_not_pos samples hmax s hs]
    norm_num

theorem abs_tanh_le_of_abs_le_one {u : ℝ} (hu : |u| ≤ 1) :
    |Real.tanh u| ≤ Real.tanh 1 := by
  obtain ⟨h1, h2⟩ := abs_le.mp hu
  rw [abs_le]
  refine ⟨?_, tanh_le_tanh h2⟩
  rw [← Real.tanh_neg]
  exact tanh_le_tanh h1

theorem abs_tanh_eq_of_abs_eq_one {u : ℝ} (hu : |u| = 1) :
    |Real.tanh u| = Real.tanh 1 := by
  rcases (abs_eq (by norm_num : (0 : ℝ) ≤ 1)).mp hu with h | h
  · rw [h, abs_of_pos tanh_one_pos]
  · rw [h, Real.tanh_neg, abs_neg, abs_of_pos tanh_one_pos]

/-- A buffer with a non-zero sample has a positive peak. -/
theorem maxAmplitude_pos_of_ne_zero (samples : List ℝ) (hnz : ∃ s ∈ samples, s ≠ 0) :
    0 < maxAmplitude samples := by
  obtain ⟨s, hs, hne⟩ := hnz
  exact lt_of_lt_of_le (abs_pos.mpr hne) (abs_le_maxAmplitude samples s hs)

/-- After normalisation of a buffer that is not all zeros, the largest
absolute value is `tanh 1`. -/
theorem normalise_peak (samples : List ℝ) (hnz : ∃ s ∈ samples, s ≠ 0) :
    (∀ s ∈ normalise realMath samples, |s| ≤ Real.tanh 1)
      ∧ ∃ s ∈ normalise realMath samples, |s| = Real.tanh 1 := by
  have hpos := maxAmplitude_pos_of_ne_zero samples hnz
  have hnorm : normalise realMath samples
      = samples.map (fun s => Real.tanh (s / maxAmplitude samples)) := by
    unfold normalise
    simp only [gt_iff_lt, hpos, if_true]
    rfl
  rw [hnorm]
  constructor
  · intro s hs
    obtain ⟨a, ha, rfl⟩ := List.mem_map.mp hs
    apply abs_tanh_le_of_abs_le_one
    rw [abs_div, abs_of_pos hpos, div_le_one hpos]
    exact abs_le_maxAmplitude samples a ha
  · obtain ⟨a, ha, hmax⟩ := maxAmplitude_attained samples hpos
    refine ⟨_, List.mem_map.mpr ⟨a, ha, rfl⟩, ?_⟩
    apply abs_tanh_eq_of_abs_eq_one
    rw [abs_div, abs_of_pos hpos, hmax, div_self (ne_of_gt hpos)]

/-- The second sample of the single note of the scenario of a lone white
pixel (`durationMs = 500`, `baseFreq = 440`) is positive. -/
theorem noteSample_white_pos :
    0 < noteSample realMath (noteFrequency realMath 440 0 1) 1
      (((500 : Int) : ℝ) / 1000.0) 22050 1 := by
  have hfreq : noteFrequency realMath 440 0 1 = 440 := by
    simp [noteFrequency, realMath]
  have hsin : ∀ c : ℝ, 0 < c → c ≤ 8 →
      0 < Real.sin (c * Real.pi * 440 * (((1 : ℕ) : ℝ) / ((sampleRate : ℕ) : ℝ))) := by
    intro c hc0 hc8
    have hpi := Real.pi_pos
    have harg : c * Real.pi * 440 * (((1 : ℕ) : ℝ) / ((sampleRate : ℕ) : ℝ))
        = Real.pi * (c * 440 / 44100) := by
      simp only [sampleRate]
      push_cast
      ring
    rw [harg]
    apply Real.sin_pos_of_pos_of_lt_pi
    · positivity
    · have : c * 440 / 44100 < 1 := by
        rw [div_lt_one (by norm_num)]
        linarith
      nlinarith
  have h2 := hsin 2 (by norm_num) (by norm_num)
  have h4 := hsin 4 (by norm_num) (by norm_num)
  have h6 := hsin 6 (by norm_num) (by norm_num)
  have h8 := hsin 8 (by norm_num) (by norm_num)
  have hwave : 0 < generateHarmonicWave realMath 440 1
      (((1 : ℕ) : ℝ) / ((sampleRate : ℕ) : ℝ)) := by
    simp only [generateHarmonicWave, realMath]
    have e2 := mul_pos (by norm_num : (0 : ℝ) < 0.5 * 1) h4
    have e3 := mul_pos (by norm_num : (0 : ℝ) < 0.25 * 1) h6
    have e4 := mul_pos (by norm_num : (0 : ℝ) < 0.125 * 1) h8
    have e1 := mul_pos (by norm_num : (0 : ℝ) < 1) h2
    linarith
  rw [hfreq]
  simp only [noteSample]
  have hnormalised : (((1 : ℕ) : ℝ) / ((22050 : ℕ) : ℝ)) / (((500 : Int) : ℝ) / 1000.0)
      = 1 / 11025 := by
    push_cast
    norm_num
  unfold applyEnvelope
  simp only [hnormalised]
  rw [if_pos (by norm_num)]
  exact mul_pos hwave (by norm_num)

/-- The scenario of a lone white pixel: the mixed buffer has `22050` samples,
not all zero. -/
theorem mixedSamples_white :
    ∃ mixed, mixedSamples realMath [1] 500 440 1 = some mixed
      ∧ mixed.length = 22050 ∧ ∃ s ∈ mixed, s ≠ 0 := by
  have hfloor : totalSamplesOf ℝ 500 = 22050 := totalSamples_500
  have hidx : notePositions [(1 : ℝ)].length 1 = [0] :=
    forIndices_single _ _ _ (by simp) (by decide)
  rw [mixedSamples_eq realMath [1] 500 440 1 (by decide) (by decide), hidx, hfloor,
    durationSecOf_500]
  have hbody : noteBody realMath [1] (((500 : Int) : ℝ) / 1000.0) 440 (22050 : Int).toNat
      (List.replicate (22050 : Int).toNat 0) 0
      = some ((List.replicate 22050 (0 : ℝ)).mapIdx (fun j s =>
          s + noteSample realMath (noteFrequency realMath 440 0 1) 1
            (((500 : Int) : ℝ) / 1000.0) 22050 j)) := by
    have h22 : (22050 : Int).toNat = 22050 := rfl
    rw [h22]
    unfold noteBody
    simp only [List.getElem?_cons_zero, List.length_singleton]
    rw [if_neg (by norm_num)]
    exact mixNote_eq _ _ _ _ _ _ (List.length_replicate _ _)
  rw [List.foldlM_cons, hbody]
  have hlen : ∀ f : Nat → ℝ → ℝ, ((List.replicate 22050 (0 : ℝ)).mapIdx f).length = 22050 :=
    fun f => by rw [List.length_mapIdx, List.length_replicate]
  refine ⟨_, rfl, hlen _, ?_⟩
  have h1 : 1 < ((List.replicate 22050 (0 : ℝ)).mapIdx (fun j s =>
      s + noteSample realMath (noteFrequency realMath 440 0 1) 1
        (((500 : Int) : ℝ) / 1000.0) 22050 j)).length := by
    rw [hlen]
    norm_num
  refine ⟨_, List.getElem_mem h1, ?_⟩
  rw [List.getElem_mapIdx, List.getElem_replicate, zero_add]
  exact ne_of_gt noteSample_white_pos

/-! ## Encoder lemmas -/

theorem foldl_append_eq_flatMap {α : Type} (f : α → List Nat) (data : List α)
    (init : List Nat) :
    data.foldl (fun file sample => file ++ f sample) init = init ++ data.flatMap f := by
  induction data generalizing init with
  | nil => simp
  | cons a rest ih => rw [List.foldl_cons, ih, List.flatMap_cons, List.append_assoc]

theorem asciiBytes_RIFF : asciiBytes "RIFF" = [82, 73, 70, 70] := by decide

theorem asciiBytes_WAVE : asciiBytes "WAVE" = [87, 65, 86, 69] := by decide

theorem asciiBytes_fmt : asciiBytes "fmt " = [102, 109, 116, 32] := by decide

theorem asciiBytes_data : asciiBytes "data" = [100, 97, 116, 97] := by decide

/-- The header is 44 bytes long, whatever the writer. -/
theorem header_length (w : Writer) (n : Nat) : (w.header n).length = 44 := by
  simp [Writer.header, putUint32LE, putUint16LE, asciiBytes_RIFF, asciiBytes_WAVE,
    asciiBytes_fmt, asciiBytes_data]

/-- The file is the header followed by two bytes per sample. -/
theorem WriteFile_eq {K : Type} [LinearOrderedField K] [FloorRing K] (w : Writer)
    (data : List K) :
    w.WriteFile data
      = w.header data.length
        ++ data.flatMap (fun sample => putInt16LE (int16 (sampleToInt sample))) := by
  unfold Writer.WriteFile
  exact foldl_append_eq_flatMap _ _ _

theorem WriteFile_drop_header {K : Type} [LinearOrderedField K] [FloorRing K] (w : Writer)
    (data : List K) :
    (w.WriteFile data).drop 44
      = data.flatMap (fun sample => putInt16LE (int16 (sampleToInt sample))) := by
  rw [WriteFile_eq, List.drop_append_of_le_length (by rw [header_length])]
  rw [List.drop_of_length_le (by rw [header_length]), List.nil_append]

theorem clampSample_eq {K : Type} [LinearOrderedField K] (s : K) :
    clampSample s = max (-1) (min 1 s) := by
  unfold clampSample
  norm_num
  split_ifs with h1 h2
  · rw [min_eq_left (le_of_lt h1), max_eq_right (by norm_num)]
  · rw [min_eq_right (not_lt.mp h1), max_eq_left (le_of_lt h2)]
  · rw [min_eq_right (not_lt.mp h1), max_eq_right (not_lt.mp h2)]

theorem clampSample_range {K : Type} [LinearOrderedField K] (s : K) :
    -1 ≤ clampSample s ∧ clampSample s ≤ 1 := by
  rw [clampSample_eq]
  exact ⟨le_max_left _ _, max_le (by norm_num) (min_le_left _ _)⟩

/-- The integer value of a clamped sample fits `int16` and avoids `-32768`. -/
theorem sampleToInt_range {K : Type} [LinearOrderedField K] [FloorRing K] (s : K) :
    -32767 ≤ sampleToInt s ∧ sampleToInt s ≤ 32767 := by
  obtain ⟨h1, h2⟩ := clampSample_range s
  have hlo : ((-32767 : Int) : K) ≤ clampSample s * 32767 := by
    push_cast
    linarith
  have hhi : clampSample s * 32767 ≤ ((32767 : Int) : K) := by
    push_cast
    linarith
  have habs : |clampSample s * 32767| < (2 : K) ^ (53 : Int) := by
    push_cast at hlo hhi
    rw [abs_lt]
    constructor
    · norm_num
      linarith
    · norm_num
      linarith
  obtain ⟨r1, r2⟩ := roundFloat64_mem_Icc (-32767) 32767 hlo hhi habs
  unfold sampleToInt truncToInt
  split
  · rename_i hnn
    constructor
    · have := Int.floor_nonneg.mpr hnn
      omega
    · have h3 : ((⌊roundFloat64 (clampSample s * 32767)⌋ : Int) : K) ≤ ((32767 : Int) : K) :=
        le_trans (Int.floor_le _) r2
      exact_mod_cast h3
  · rename_i hneg
    constructor
    · have h3 : ((-32767 : Int) : K) ≤ ((⌈roundFloat64 (clampSample s * 32767)⌉ : Int) : K) :=
        le_trans r1 (Int.le_ceil _)
      exact_mod_cast h3
    · have : ⌈roundFloat64 (clampSample s * 32767)⌉ ≤ 0 := by
        rw [Int.ceil_le]
        push_cast
        exact le_of_lt (not_le.mp hneg)
      omega

/-- Evaluation of `sampleToInt` when the clamped product is a `float64`. -/
theorem sampleToInt_eq_of_exact {K : Type} [LinearOrderedField K] [FloorRing K] (s : K)
    (m j z : Int) (hval : max (-1) (min 1 s) * 32767 = (m : K) * (2 : K) ^ j)
    (hmag : |(m : K) * (2 : K) ^ j| < (2 : K) ^ (j + 53))
    (htr : truncToInt ((m : K) * (2 : K) ^ j) = z) : sampleToInt s = z := by
  unfold sampleToInt
  rw [clampSample_eq, hval, roundFloat64_exact m j hmag, htr]

theorem int16_of_range (v : Int) (h1 : -32768 ≤ v) (h2 : v ≤ 32767) : int16 v = v := by
  unfold int16
  omega

/-- A value in the `int16` range is recovered from its two bytes. -/
theorem decodeInt16s_putInt16LE (v : Int) (h1 : -32768 ≤ v) (h2 : v ≤ 32767)
    (rest : List Nat) :
    decodeInt16s (putInt16LE v ++ rest) = v :: decodeInt16s rest := by
  simp only [putInt16LE, putUint16LE, uint16, List.cons_append, List.nil_append,
    decodeInt16s, decodeInt16LE]
  congr 1
  split <;> omega

theorem decodeInt16s_payload {K : Type} [LinearOrderedField K] [FloorRing K]
    (data : List K) :
    decodeInt16s (data.flatMap (fun sample => putInt16LE (int16 (sampleToInt sample))))
      = data.map sampleToInt := by
  induction data with
  | nil => simp [decodeInt16s]
  | cons a rest ih =>
    obtain ⟨h1, h2⟩ := sampleToInt_range a
    rw [List.flatMap_cons, int16_of_range _ (by omega) (by omega),
      decodeInt16s_putInt16LE _ (by omega) (by omega), ih, List.map_cons]

theorem payload_length {K : Type} [LinearOrderedField K] [FloorRing K] (data : List K) :
    (data.flatMap (fun sample => putInt16LE (int16 (sampleToInt sample)))).length
      = 2 * data.length := by
  induction data with
  | nil => simp
  | cons a rest ih =>
    rw [List.flatMap_cons, List.length_append, ih, List.length_cons]
    simp only [putInt16LE, putUint16LE, List.length_cons, List.length_nil]
    omega

theorem payload_bytes {K : Type} [LinearOrderedField K] [FloorRing K] (data : List K) :
    ∀ b ∈ data.flatMap (fun sample => putInt16LE (int16 (sampleToInt sample))),
      b < 256 := by
  intro b hb
  obtain ⟨a, _, hmem⟩ := List.mem_flatMap.mp hb
  simp only [putInt16LE, putUint16LE, List.mem_cons, List.mem_singleton,
    List.not_mem_nil, or_false] at hmem
  rcases hmem with rfl | rfl <;> omega

/-- The integer values of the samples of the round-trip example. -/
theorem sampleToInt_example :
    [(1.0 : ℝ), -1.0, 0.0, 0.5].map sampleToInt = [32767, -32767, 0, 16383] := by
  have e1 : sampleToInt (1.0 : ℝ) = 32767 :=
    sampleToInt_eq_of_exact _ 32767 0 _ (by norm_num) (by rw [abs_lt]; constructor <;> norm_num)
      (truncToInt_of_nonneg (by norm_num) (by norm_num) (by norm_num))
  have e2 : sampleToInt (-1.0 : ℝ) = -32767 :=
    sampleToInt_eq_of_exact _ (-32767) 0 _ (by norm_num) (by rw [abs_lt]; constructor <;> norm_num)
      (truncToInt_of_neg (by norm_num) (by norm_num) (by norm_num))
  have e3 : sampleToInt (0.0 : ℝ) = 0 :=
    sampleToInt_eq_of_exact _ 0 0 _ (by norm_num) (by rw [abs_lt]; constructor <;> norm_num)
      (truncToInt_of_nonneg (by norm_num) (by norm_num) (by norm_num))
  have e4 : sampleToInt (0.5 : ℝ) = 16383 :=
    sampleToInt_eq_of_exact _ 32767 (-1) _ (by norm_num) (by rw [abs_lt]; constructor <;> norm_num)
      (truncToInt_of_nonneg (by norm_num) (by norm_num) (by norm_num))
  simp only [List.map_cons, List.map_nil, e1, e2, e3, e4]

/-- Negative products with a fractional part are truncated toward zero. -/
theorem sampleToInt_example_negative :
    [(-0.5 : ℝ), -0.25, 0.75].map sampleToInt = [-16383, -8191, 24575] := by
  have e1 : sampleToInt (-0.5 : ℝ) = -16383 :=
    sampleToInt_eq_of_exact _ (-32767) (-1) _ (by norm_num) (by rw [abs_lt]; constructor <;> norm_num)
      (truncToInt_of_neg (by norm_num) (by norm_num) (by norm_num))
  have e2 : sampleToInt (-0.25 : ℝ) = -8191 :=
    sampleToInt_eq_of_exact _ (-32767) (-2) _ (by norm_num) (by rw [abs_lt]; constructor <;> norm_num)
      (truncToInt_of_neg (by norm_num) (by norm_num) (by norm_num))
  have e3 : sampleToInt (0.75 : ℝ) = 24575 :=
    sampleToInt_eq_of_exact _ 98301 (-2) _ (by norm_num) (by rw [abs_lt]; constructor <;> norm_num)
      (truncToInt_of_nonneg (by norm_num) (by norm_num) (by norm_num))
  simp only [List.map_cons, List.map_nil, e1, e2, e3]

/-- The `float64` nearest to `1 / 32767`: the rounded product with `32767`
is `1`, the exact product is below `1`. -/
theorem sampleToInt_rounding_example :
    sampleToInt ((4503737070518400 : ℝ) / 2 ^ 67) = 1
      ∧ truncToInt (max (-1) (min 1 ((4503737070518400 : ℝ) / 2 ^ 67)) * 32767) = 0 := by
  have hclamp : max (-1) (min 1 ((4503737070518400 : ℝ) / 2 ^ 67))
      = (4503737070518400 : ℝ) / 2 ^ 67 := by
    rw [min_eq_right (by norm_num), max_eq_right (by norm_num)]
  constructor
  · unfold sampleToInt
    rw [clampSample_eq, hclamp]
    have hr : roundFloat64 ((4503737070518400 : ℝ) / 2 ^ 67 * 32767)
        = ((9007199254740992 : Int) : ℝ) * (2 : ℝ) ^ ((-1 : Int) - 52) := by
      apply roundFloat64_eq_of (-1) 9007199254740992
      · rw [abs_of_pos (by norm_num)]; norm_num
      · rw [abs_of_pos (by norm_num)]; norm_num
      · norm_num
      · norm_num
    rw [hr]
    exact truncToInt_of_nonneg (by norm_num) (by norm_num) (by norm_num)
  · rw [hclamp]
    exact truncToInt_of_nonneg (by norm_num) (by norm_num) (by norm_num)

theorem decodeLE_putUint32LE (v : Nat) (h : v < 2 ^ 32) :
    decodeLE (putUint32LE v) = v := by
  simp only [putUint32LE, decodeLE]
  omega

theorem decodeLE_putUint16LE (v : Nat) (h : v < 2 ^ 16) :
    decodeLE (putUint16LE v) = v := by
  simp only [putUint16LE, decodeLE]
  omega

theorem uint32_of_range (x : Int) (h0 : 0 ≤ x) (h1 : x < 2 ^ 32) :
    uint32 x = x.toNat ∧ x.toNat < 2 ^ 32 := by
  unfold uint32
  omega

theorem uint16_of_range (x : Int) (h0 : 0 ≤ x) (h1 : x < 2 ^ 16) :
    uint16 x = x.toNat ∧ x.toNat < 2 ^ 16 := by
  unfold uint16
  omega

/-- The header written by a writer made by `NewWriter`. -/
theorem header_NewWriter (rate : Int) (n : Nat) :
    (NewWriter rate).header n
      = [82, 73, 70, 70] ++ (putUint32LE (uint32 (36 + 2 * (n : Int)))
        ++ ([87, 65, 86, 69] ++ ([102, 109, 116, 32] ++ (putUint32LE (uint32 16)
        ++ (putUint16LE (uint16 1) ++ (putUint16LE (uint16 1)
        ++ (putUint32LE (uint32 rate) ++ (putUint32LE (uint32 (2 * rate))
        ++ (putUint16LE (uint16 2) ++ (putUint16LE (uint16 16)
        ++ ([100, 97, 116, 97] ++ putUint32LE (uint32 (2 * (n : Int)))))))))))))) := by
  have h1 : Int.tdiv (rate * 1 * 16) 8 = 2 * rate := by
    rw [show rate * 1 * 16 = (2 * rate) * 8 by ring]
    exact Int.mul_tdiv_cancel _ (by decide)
  have h2 : Int.tdiv ((1 : Int) * 16) 8 = 2 := by decide
  have h3 : Int.tdiv ((n : Int) * 16) 8 = 2 * (n : Int) := by
    rw [show (n : Int) * 16 = (2 * (n : Int)) * 8 by ring]
    exact Int.mul_tdiv_cancel _ (by decide)
  simp only [Writer.header, NewWriter, h1, h2, h3, asciiBytes_RIFF, asciiBytes_WAVE,
    asciiBytes_fmt, asciiBytes_data, List.append_assoc]

/-! ## Note spacing -/

/-- For a positive density the step is the natural-number quotient raised
to 1. -/
theorem noteSpacing_toNat (len : Nat) (density : Int) (hden : 1 ≤ density) :
    (noteSpacing len density).toNat = max 1 (len / density.toNat) := by
  have hcast : density = ((density.toNat : Nat) : Int) := by omega
  have hq : Int.tdiv (len : Int) density = ((len / density.toNat : Nat) : Int) := by
    rw [Int.ofNat_tdiv]
    rw [← hcast]
  unfold noteSpacing
  simp only [hq]
  generalize len / density.toNat = q
  split
  · rename_i h
    have hq0 : q = 0 := by omega
    rw [hq0]
    rfl
  · rename_i h
    have hq1 : 1 ≤ q := by omega
    rw [max_eq_right hq1]
    omega

/-- Number of multiples of `q = len / d` below `len`, for `d ≤ len`. -/
theorem ceil_div_quotient (len d : Nat) (hd : 0 < d) (hlen : d ≤ len) :
    d ≤ (len + len / d - 1) / (len / d)
      ∧ ((len + len / d - 1) / (len / d) = d ↔ d ∣ len) := by
  have hq : 0 < len / d := Nat.div_pos hlen hd
  have hm : d * (len / d) ≤ len := Nat.mul_div_le len d
  have hge : d ≤ (len + len / d - 1) / (len / d) := by
    rw [Nat.le_div_iff_mul_le hq]
    omega
  refine ⟨hge, ?_, ?_⟩
  · intro h
    have hlt : (len + len / d - 1) / (len / d) < d + 1 := by omega
    rw [Nat.div_lt_iff_lt_mul hq, Nat.add_mul, Nat.one_mul] at hlt
    have heq : d * (len / d) = len := by omega
    exact Dvd.intro _ heq
  · intro h
    have heq : d * (len / d) = len := Nat.mul_div_cancel' h
    apply le_antisymm _ hge
    have hlt : (len + len / d - 1) / (len / d) < d + 1 := by
      rw [Nat.div_lt_iff_lt_mul hq, Nat.add_mul, Nat.one_mul]
      omega
    omega

/-! ## Claims -/

/-- C1: for every intensity sequence, every `durationMs ≥ 0`, every base
frequency and every `density ≥ 1`, `generateMusicalSamples` returns a buffer
and every element `s` of it satisfies `-1 ≤ s ≤ 1` (samples as real
numbers). -/
theorem generateMusicalSamples_bounded (intensities : List ℝ) (durationMs : Int)
    (baseFreq : ℝ) (density : Int) (hd : 0 ≤ durationMs) (hden : 1 ≤ density) :
    ∃ buffer, generateMusicalSamples realMath intensities durationMs baseFreq density
        = some buffer ∧ ∀ s ∈ buffer, -1 ≤ s ∧ s ≤ 1 := by
  obtain ⟨mixed, _, hgen, _⟩ := mixedSamples_some realMath intensities durationMs baseFreq
    density hd (by omega)
  exact ⟨_, hgen, normalise_bounded mixed⟩

theorem generateMusicalSamples_bounded_witness :
    (0 : Int) ≤ 500 ∧ (1 : Int) ≤ 3 ∧
      ∃ buffer, generateMusicalSamples realMath [1, 0.02, 0.5, 0.75] 500 440 3
        = some buffer ∧ ∀ s ∈ buffer, -1 ≤ s ∧ s ≤ 1 :=
  ⟨by decide, by decide,
    generateMusicalSamples_bounded [1, 0.02, 0.5, 0.75] 500 440 3 (by decide) (by decide)⟩

/-- C2, as stated, fails: for `durationMs = 506` the buffer has
`22314` samples while `round (44100 * 506 / 1000) = 22315`. -/
theorem generateMusicalSamples_length_round_counterexample :
    ∃ buffer, generateMusicalSamples realMath [0.5, 0.8] 506 440 10 = some buffer
      ∧ (buffer.length : Int) = 22314
      ∧ round ((44100 : ℝ) * ((506 : Int) : ℝ) / 1000) = 22315 := by
  obtain ⟨mixed, _, hgen, hlen⟩ := mixedSamples_some realMath [0.5, 0.8] 506 440 10
    (by decide) (by decide)
  refine ⟨_, hgen, ?_, ?_⟩
  · rw [normalise_length, hlen,
      (totalSamples_bounds (K := ℝ) 506 ⟨by decide, by decide⟩).2.2.1 (by decide),
      Int.floor_eq_iff]
    constructor <;> norm_num
  · rw [round_eq, Int.floor_eq_iff]
    constructor <;> norm_num

/-- C2 (amended): for every `durationMs` in `[500, 5000]`, every intensity
sequence, base frequency in `[220, 880]` and density in `[1, 20]`,
`generateMusicalSamples` returns a buffer whose length is the `float64`
product `44100 * (durationMs / 1000)` truncated by the `int` conversion. That
length is `floor (44100 * durationMs / 1000)` when `durationMs` is not a
multiple of 10, and that floor or one less otherwise: `durationMs = 570`
gives `25136`, one less than `25137`. -/
theorem generateMusicalSamples_length (intensities : List ℝ) (durationMs : Int)
    (baseFreq : ℝ) (density : Int)
    (hd : 500 ≤ durationMs ∧ durationMs ≤ 5000)
    (_hf : 220 ≤ baseFreq ∧ baseFreq ≤ 880)
    (hden : 1 ≤ density ∧ density ≤ 20) :
    (∃ buffer, generateMusicalSamples realMath intensities durationMs baseFreq density
        = some buffer
      ∧ (buffer.length : Int) = totalSamplesOf ℝ durationMs
      ∧ ⌊(44100 : ℝ) * (durationMs : ℝ) / 1000⌋ - 1 ≤ (buffer.length : Int)
      ∧ (buffer.length : Int) ≤ ⌊(44100 : ℝ) * (durationMs : ℝ) / 1000⌋
      ∧ (durationMs % 10 ≠ 0 →
          (buffer.length : Int) = ⌊(44100 : ℝ) * (durationMs : ℝ) / 1000⌋))
      ∧ totalSamplesOf ℝ 570 = 25136
      ∧ ⌊(44100 : ℝ) * ((570 : Int) : ℝ) / 1000⌋ = 25137 := by
  obtain ⟨mixed, _, hgen, hlen⟩ := mixedSamples_some realMath intensities durationMs
    baseFreq density (by omega) (by omega)
  obtain ⟨b1, b2, b3, _⟩ := totalSamples_bounds (K := ℝ) durationMs hd
  refine ⟨⟨_, hgen, ?_, ?_, ?_, ?_⟩, totalSamples_570, ?_⟩
  · rw [normalise_length, hlen]
  · rw [normalise_length, hlen]
    exact b1
  · rw [normalise_length, hlen]
    exact b2
  · intro hmod
    rw [normalise_length, hlen]
    exact b3 hmod
  · rw [Int.floor_eq_iff]
    constructor <;> norm_num

/-- The spec's instance of C2: `durationMs = 500` gives `22050` samples. -/
theorem generateMusicalSamples_length_witness :
    ((500 : Int) ≤ 500 ∧ (500 : Int) ≤ 5000) ∧ ((220 : ℝ) ≤ 440 ∧ (440 : ℝ) ≤ 880)
      ∧ ((1 : Int) ≤ 1 ∧ (1 : Int) ≤ 20)
      ∧ ∃ buffer, generateMusicalSamples realMath [1] 500 440 1 = some buffer
        ∧ buffer.length = 22050 := by
  obtain ⟨⟨buffer, hgen, hlen, _⟩, _⟩ := generateMusicalSamples_length [1] 500 440 1
    ⟨by decide, by decide⟩ ⟨by norm_num, by norm_num⟩ ⟨by decide, by decide⟩
  refine ⟨⟨by decide, by decide⟩, ⟨by norm_num, by norm_num⟩, ⟨by decide, by decide⟩,
    buffer, hgen, ?_⟩
  rw [totalSamples_500] at hlen
  exact_mod_cast hlen

/-- C3: for every intensity sequence in which every value is below `0.05`
(the empty sequence included), every `durationMs ≥ 0`, base frequency and
`density ≥ 1`, the peak of the mixed buffer is not positive, so normalisation
is skipped (no division takes place) and `generateMusicalSamples` returns the
mixed buffer, every element of which is exactly `0`. -/
theorem generateMusicalSamples_silent (intensities : List ℝ) (durationMs : Int)
    (baseFreq : ℝ) (density : Int)
    (hquiet : ∀ a ∈ intensities, a < 0.05) (hd : 0 ≤ durationMs) (hden : 1 ≤ density) :
    ∃ mixed, mixedSamples realMath intensities durationMs baseFreq density = some mixed
      ∧ ¬ maxAmplitude mixed > 0
      ∧ generateMusicalSamples realMath intensities durationMs baseFreq density
          = some mixed
      ∧ ∀ s ∈ mixed, s = 0 := by
  have hmix := mixedSamples_silent realMath intensities durationMs baseFreq density
    hquiet hd (by omega)
  have hzero : ∀ s ∈ List.replicate (totalSamplesOf ℝ durationMs).toNat (0 : ℝ),
      s = 0 := fun s hs => List.eq_of_mem_replicate hs
  have hmax := maxAmplitude_eq_zero_of_all_zero _ hzero
  refine ⟨_, hmix, by rw [hmax]; exact lt_irrefl 0, ?_, hzero⟩
  unfold generateMusicalSamples
  rw [hmix]
  simp only [Option.map_some', normalise, hmax, gt_iff_lt, lt_self_iff_false, if_false]

theorem generateMusicalSamples_silent_witness :
    (∀ a ∈ [(0.01 : ℝ), 0.04, 0], a < 0.05) ∧ (0 : Int) ≤ 1000 ∧ (1 : Int) ≤ 2 ∧
    ∃ mixed, mixedSamples realMath [0.01, 0.04, 0] 1000 440 2 = some mixed
      ∧ ¬ maxAmplitude mixed > 0
      ∧ generateMusicalSamples realMath [0.01, 0.04, 0] 1000 440 2 = some mixed
      ∧ ∀ s ∈ mixed, s = 0 :=
  have hq : ∀ a ∈ [(0.01 : ℝ), 0.04, 0], a < 0.05 := by
    intro a ha
    simp only [List.mem_cons, List.mem_singleton, List.not_mem_nil, or_false] at ha
    rcases ha with rfl | rfl | rfl <;> norm_num
  ⟨hq, by decide, by decide,
    generateMusicalSamples_silent [0.01, 0.04, 0] 1000 440 2 hq (by decide) (by decide)⟩

/-- C4, as stated, fails: for the lone white pixel (`[1.0]`, `density = 1`,
`durationMs = 500`, `baseFreq = 440`) the mixed buffer is not all zeros and
the returned buffer has `22050` samples, yet every sample is strictly below
`1` in absolute value, so the peak is not `1.0`. -/
theorem generateMusicalSamples_peak_counterexample :
    ∃ mixed buffer, mixedSamples realMath [1] 500 440 1 = some mixed
      ∧ (∃ s ∈ mixed, s ≠ 0)
      ∧ generateMusicalSamples realMath [1] 500 440 1 = some buffer
      ∧ buffer.length = 22050
      ∧ ∀ s ∈ buffer, |s| < 1 := by
  obtain ⟨mixed, hmix, hlen, hnz⟩ := mixedSamples_white
  refine ⟨mixed, normalise realMath mixed, hmix, hnz, ?_, ?_, ?_⟩
  · unfold generateMusicalSamples
    rw [hmix]
    rfl
  · rw [normalise_length, hlen]
  · intro s hs
    exact lt_of_le_of_lt ((normalise_peak mixed hnz).1 s hs) (tanh_lt_one 1)

/-- C4 (amended): whenever the mixed buffer is not all zeros, the peak
absolute value of the buffer returned by `generateMusicalSamples` is exactly
`tanh 1` (every sample is at most `tanh 1` in absolute value and some sample
attains it), a value strictly between `0` and `1`: the soft clip is applied
after the division by the peak. -/
theorem generateMusicalSamples_peak (intensities : List ℝ) (durationMs : Int)
    (baseFreq : ℝ) (density : Int)
    (hnz : ∃ mixed, mixedSamples realMath intensities durationMs baseFreq density
      = some mixed ∧ ∃ s ∈ mixed, s ≠ 0) :
    ∃ buffer, generateMusicalSamples realMath intensities durationMs baseFreq density
        = some buffer
      ∧ (∀ s ∈ buffer, |s| ≤ Real.tanh 1)
      ∧ (∃ s ∈ buffer, |s| = Real.tanh 1)
      ∧ 0 < Real.tanh 1 ∧ Real.tanh 1 < 1 := by
  obtain ⟨mixed, hmix, hne⟩ := hnz
  obtain ⟨hle, hattained⟩ := normalise_peak mixed hne
  refine ⟨normalise realMath mixed, ?_, hle, hattained, tanh_one_pos, tanh_lt_one 1⟩
  unfold generateMusicalSamples
  rw [hmix]
  rfl

/-- The scenario of C4: a lone white pixel with `density = 1`,
`durationMs = 500`, `baseFreq = 440` has a mixed buffer that is not all zeros
and an output of `22050` samples whose peak is `tanh 1`. -/
theorem generateMusicalSamples_peak_witness :
    (∃ mixed, mixedSamples realMath [1] 500 440 1 = some mixed ∧ ∃ s ∈ mixed, s ≠ 0)
    ∧ ∃ buffer, generateMusicalSamples realMath [1] 500 440 1 = some buffer
      ∧ buffer.length = 22050
      ∧ (∀ s ∈ buffer, |s| ≤ Real.tanh 1)
      ∧ (∃ s ∈ buffer, |s| = Real.tanh 1)
      ∧ 0 < Real.tanh 1 ∧ Real.tanh 1 < 1 := by
  obtain ⟨mixed, hmix, hlen, hne⟩ := mixedSamples_white
  have hnz : ∃ mixed, mixedSamples realMath [1] 500 440 1 = some mixed
      ∧ ∃ s ∈ mixed, s ≠ 0 := ⟨mixed, hmix, hne⟩
  obtain ⟨buffer, hgen, h1, h2, h3, h4⟩ := generateMusicalSamples_peak [1] 500 440 1 hnz
  refine ⟨hnz, buffer, hgen, ?_, h1, h2, h3, h4⟩
  have hout : generateMusicalSamples realMath [1] 500 440 1
      = some (normalise realMath mixed) := by
    unfold generateMusicalSamples
    rw [hmix]
    rfl
  rw [hout] at hgen
  rw [← Option.some.inj hgen, normalise_length, hlen]

/-- C5, as stated, fails: for the `float64` sample nearest to `1 / 32767` the
exact product with `32767` is below `1` and truncates to `0`, but the
`float64` product is `1`, and `WriteFile` writes `1`. -/
theorem WriteFile_payload_counterexample :
    decodeInt16s (((NewWriter 44100).WriteFile [(4503737070518400 : ℝ) / 2 ^ 67]).drop 44)
        = [1]
      ∧ [(4503737070518400 : ℝ) / 2 ^ 67].map
          (fun s => truncToInt (max (-1) (min 1 s) * 32767)) = [0] := by
  obtain ⟨h1, h2⟩ := sampleToInt_rounding_example
  constructor
  · rw [WriteFile_drop_header, decodeInt16s_payload, List.map_cons, List.map_nil, h1]
  · rw [List.map_cons, List.map_nil, h2]

/-- C5 (amended): for every buffer of `n` real samples, the payload that
`WriteFile` writes after the 44-byte header has `2 * n` bytes and decodes, as
little-endian signed 16-bit values, to the list whose `k`-th element is
`data[k]` clamped to `[-1, 1]`, multiplied by `32767` in `float64` (the
product rounded to the nearest `float64`) and truncated toward zero. The
buffer `[1.0, -1.0, 0.0, 0.5]` decodes to `[32767, -32767, 0, 16383]` and
`[-0.5, -0.25, 0.75]` to `[-16383, -8191, 24575]`. -/
theorem WriteFile_payload (w : Writer) (data : List ℝ) :
    ((w.WriteFile data).drop 44).length = 2 * data.length
      ∧ (∀ b ∈ (w.WriteFile data).drop 44, b < 256)
      ∧ decodeInt16s ((w.WriteFile data).drop 44)
          = data.map (fun s => truncToInt (roundFloat64 (max (-1) (min 1 s) * 32767)))
      ∧ decodeInt16s (((NewWriter 44100).WriteFile [(1.0 : ℝ), -1.0, 0.0, 0.5]).drop 44)
          = [32767, -32767, 0, 16383]
      ∧ decodeInt16s (((NewWriter 44100).WriteFile [(-0.5 : ℝ), -0.25, 0.75]).drop 44)
          = [-16383, -8191, 24575] := by
  refine ⟨?_, ?_, ?_, ?_, ?_⟩
  · rw [WriteFile_drop_header, payload_length]
  · rw [WriteFile_drop_header]
    exact payload_bytes data
  · rw [WriteFile_drop_header, decodeInt16s_payload]
    apply List.map_congr_left
    intro s _
    unfold sampleToInt
    rw [clampSample_eq]
  · rw [WriteFile_drop_header, decodeInt16s_payload]
    exact sampleToInt_example
  · rw [WriteFile_drop_header, decodeInt16s_payload]
    exact sampleToInt_example_negative

/-- C6: for every buffer of `n` samples with `36 + 2n < 2^32` and a writer
made by `NewWriter rate` with `0 ≤ rate` and `2 * rate < 2^32`, the bytes
produced by `WriteFile` have total length `44 + 2n`, are all below 256, and
begin with the 44-byte header: `RIFF`, uint32 LE `36 + 2n`, `WAVE`, `fmt `,
uint32 `16`, uint16 `1` (PCM), uint16 `1` (channels), uint32 `rate`, uint32
`2 * rate` (byte rate), uint16 `2` (block align), uint16 `16` (bits per
sample), `data`, uint32 `2n`. -/
theorem WriteFile_header (data : List ℝ) (rate : Int)
    (hn : 36 + 2 * data.length < 2 ^ 32) (hr0 : 0 ≤ rate) (hr : 2 * rate < 2 ^ 32) :
    ((NewWriter rate).WriteFile data).length = 44 + 2 * data.length
      ∧ (∀ b ∈ (NewWriter rate).WriteFile data, b < 256)
      ∧ field ((NewWriter rate).WriteFile data) 0 4 = asciiBytes "RIFF"
      ∧ decodeLE (field ((NewWriter rate).WriteFile data) 4 4) = 36 + 2 * data.length
      ∧ field ((NewWriter rate).WriteFile data) 8 4 = asciiBytes "WAVE"
      ∧ field ((NewWriter rate).WriteFile data) 12 4 = asciiBytes "fmt "
      ∧ decodeLE (field ((NewWriter rate).WriteFile data) 16 4) = 16
      ∧ decodeLE (field ((NewWriter rate).WriteFile data) 20 2) = 1
      ∧ decodeLE (field ((NewWriter rate).WriteFile data) 22 2) = 1
      ∧ (decodeLE (field ((NewWriter rate).WriteFile data) 24 4) : Int) = rate
      ∧ (decodeLE (field ((NewWriter rate).WriteFile data) 28 4) : Int) = 2 * rate
      ∧ decodeLE (field ((NewWriter rate).WriteFile data) 32 2) = 2
      ∧ decodeLE (field ((NewWriter rate).WriteFile data) 34 2) = 16
      ∧ field ((NewWriter rate).WriteFile data) 36 4 = asciiBytes "data"
      ∧ decodeLE (field ((NewWriter rate).WriteFile data) 40 4) = 2 * data.length := by
  obtain ⟨c1, c2⟩ := uint32_of_range (36 + 2 * (data.length : Int)) (by omega) (by omega)
  obtain ⟨d1, d2⟩ := uint32_of_range (2 * (data.length : Int)) (by omega) (by omega)
  obtain ⟨r1, r2⟩ := uint32_of_range rate hr0 (by omega)
  obtain ⟨b1, b2⟩ := uint32_of_range (2 * rate) (by omega) hr
  have hfile := WriteFile_eq (NewWriter rate) data
  rw [header_NewWriter] at hfile
  have hbytes : ∀ b ∈ (NewWriter rate).WriteFile data, b < 256 := by
    intro b hb
    rw [WriteFile_eq, List.mem_append] at hb
    rcases hb with hb | hb
    · rw [header_NewWriter] at hb
      simp only [putUint32LE, putUint16LE, List.cons_append, List.nil_append,
        List.mem_cons, List.not_mem_nil, or_false] at hb
      omega
    · exact payload_bytes data b hb
  refine ⟨?_, hbytes, ?_⟩
  · rw [WriteFile_eq, List.length_append, header_length, payload_length]
  · rw [hfile]
    simp only [field, putUint32LE, putUint16LE, List.cons_append, List.nil_append,
      List.drop_succ_cons, List.drop_zero, List.take_succ_cons, List.take_zero,
      asciiBytes_RIFF, asciiBytes_WAVE, asciiBytes_fmt, asciiBytes_data, decodeLE,
      true_and]
    rw [c1, d1, r1, b1]
    simp only [uint32, uint16]
    omega

/-- The round-trip example of C6: four samples at rate `44100` give a file
of `44 + 8` bytes whose RIFF size field is `36 + 8`. -/
theorem WriteFile_header_witness :
    36 + 2 * [(1.0 : ℝ), -1.0, 0.0, 0.5].length < 2 ^ 32
      ∧ (0 : Int) ≤ 44100 ∧ (2 : Int) * 44100 < 2 ^ 32
      ∧ ((NewWriter 44100).WriteFile [(1.0 : ℝ), -1.0, 0.0, 0.5]).length
          = 44 + 2 * [(1.0 : ℝ), -1.0, 0.0, 0.5].length
      ∧ decodeLE (field ((NewWriter 44100).WriteFile [(1.0 : ℝ), -1.0, 0.0, 0.5]) 4 4)
          = 36 + 2 * [(1.0 : ℝ), -1.0, 0.0, 0.5].length :=
  have h := WriteFile_header [(1.0 : ℝ), -1.0, 0.0, 0.5] 44100 (by simp) (by decide)
    (by decide)
  ⟨by simp, by decide, by decide, h.1, h.2.2.2.1⟩

/-- C7 fails on the code: for `durationMs = 500` (`22050` samples) the sample
at index `17640`, at fraction `0.8` of the buffer, receives the gain `-2.1`,
not the ADSR gain `0.7` of that fraction: `applyEnvelope` divides the fraction
`j / totalSamples` it is given by `durationSec` once more. -/
theorem noteSample_short_note_gain (m : MathOps ℝ) (frequency amplitude : ℝ) :
    noteSample m frequency amplitude (((500 : Int) : ℝ) / 1000.0) 22050 17640
        = generateHarmonicWave m frequency amplitude (17640 / 44100) * (-2.1)
      ∧ applyEnvelope (1 : ℝ) (((17640 : Nat) : ℝ) / ((22050 : Nat) : ℝ))
          (((500 : Int) : ℝ) / 1000.0) = -2.1 := by
  have hnormalised : (((17640 : ℕ) : ℝ) / ((22050 : ℕ) : ℝ)) / (((500 : Int) : ℝ) / 1000.0)
      = 1.6 := by
    push_cast
    norm_num
  constructor
  · simp only [noteSample]
    unfold applyEnvelope
    simp only [hnormalised]
    rw [if_neg (by norm_num), if_neg (by norm_num), if_pos (by norm_num)]
    simp only [sampleRate]
    norm_num
  · unfold applyEnvelope
    simp only [hnormalised]
    rw [if_neg (by norm_num), if_neg (by norm_num), if_pos (by norm_num)]
    norm_num

/-- C8, as stated, fails: a scanline of length `10` with `density = 3` has
step `3` and visits the four positions `0, 3, 6, 9`. -/
theorem notePositions_count_counterexample :
    (1 : Int) ≤ 3 ∧ (3 : Int) ≤ 20 ∧ (3 : Int) ≤ (10 : Nat)
      ∧ notePositions 10 3 = [0, 3, 6, 9]
      ∧ (notePositions 10 3).length ≠ 3 := by
  have hstep : (noteSpacing 10 3).toNat = 3 := by decide
  have hpos : notePositions 10 3 = [0, 3, 6, 9] := by
    have h : ∀ (step : Nat) (hs : 0 < step), step = 3 →
        forIndices 10 step hs 0 = [0, 3, 6, 9] := by
      intro step hs he
      subst he
      rw [forIndices, if_pos (by decide), forIndices, if_pos (by decide), forIndices,
        if_pos (by decide), forIndices, if_pos (by decide), forIndices,
        if_neg (by decide)]
    exact h _ _ hstep
  refine ⟨by decide, by decide, by decide, hpos, ?_⟩
  rw [hpos]
  decide

/-- C8 (amended): for every density in `[1, 20]` and every scanline of
length at least `density`, the number of positions the note loop visits
(counted before the silence gate) is `ceil (length / noteSpacing)` with
`noteSpacing = floor (length / density)`; it is at least `density`, and
equals `density` exactly when `density` divides the length. -/
theorem notePositions_count (len : Nat) (density : Int)
    (hden : 1 ≤ density ∧ density ≤ 20) (hlen : density ≤ (len : Int)) :
    (notePositions len density).length
        = (len + len / density.toNat - 1) / (len / density.toNat)
      ∧ density.toNat ≤ (notePositions len density).length
      ∧ ((notePositions len density).length = density.toNat ↔ density.toNat ∣ len) := by
  have hd : 0 < density.toNat := by omega
  have hle : density.toNat ≤ len := by omega
  have hq : 1 ≤ len / density.toNat := Nat.div_pos hle hd
  have hstep : (noteSpacing len density).toNat = len / density.toNat := by
    rw [noteSpacing_toNat len density hden.1, max_eq_right hq]
  have hcount := notePositions_length len density
  rw [hstep] at hcount
  obtain ⟨h1, h2⟩ := ceil_div_quotient len density.toNat hd hle
  rw [hcount]
  exact ⟨rfl, h1, h2⟩

theorem notePositions_count_witness :
    ((1 : Int) ≤ 4 ∧ (4 : Int) ≤ 20) ∧ (4 : Int) ≤ ((12 : Nat) : Int)
      ∧ (notePositions 12 4).length = (12 + 12 / (4 : Int).toNat - 1) / (12 / (4 : Int).toNat)
      ∧ (4 : Int).toNat ≤ (notePositions 12 4).length
      ∧ ((notePositions 12 4).length = (4 : Int).toNat ↔ (4 : Int).toNat ∣ 12) :=
  ⟨⟨by decide, by decide⟩, by decide,
    notePositions_count 12 4 ⟨by decide, by decide⟩ (by decide)⟩

/-- C9: for every scanline length `w ≥ 0` and `density ≥ 1` the step of the
note loop is `max 1 (floor (w / density))`, which is at least `1`; when
`density ≥ w` the step is `1` and the positions visited are all of
`0 .. w-1`; for `w = 10`, `density = 20` the step is `1`. -/
theorem noteSpacing_spec (w : Nat) (density : Int) (hden : 1 ≤ density) :
    noteSpacing w density = max 1 ((w : Int) / density)
      ∧ 1 ≤ noteSpacing w density
      ∧ ((w : Int) ≤ density →
          noteSpacing w density = 1 ∧ notePositions w density = List.range w)
      ∧ noteSpacing 10 20 = 1 := by
  have htdiv : Int.tdiv (w : Int) density = (w : Int) / density :=
    Int.tdiv_eq_ediv (Int.ofNat_nonneg w) (by omega)
  have hval : noteSpacing w density = max 1 ((w : Int) / density) := by
    unfold noteSpacing
    simp only [htdiv]
    split
    · rename_i h
      rw [max_eq_left (by omega)]
    · rename_i h
      rw [max_eq_right (by omega)]
  refine ⟨hval, by rw [hval]; exact le_max_left _ _, ?_, by decide⟩
  intro hw
  have hnat : (noteSpacing w density).toNat = 1 := by
    rw [noteSpacing_toNat w density hden]
    have hd : 0 < density.toNat := by omega
    by_cases hlt : w < density.toNat
    · rw [Nat.div_eq_of_lt hlt]
      rfl
    · have heq : w = density.toNat := by omega
      rw [← heq, Nat.div_self (by omega)]
      rfl
  have hone : noteSpacing w density = 1 := by
    have hpos : 1 ≤ noteSpacing w density := by rw [hval]; exact le_max_left _ _
    omega
  refine ⟨hone, ?_⟩
  have h : ∀ (step : Nat) (hs : 0 < step), step = 1 →
      forIndices w step hs 0 = List.range w := by
    intro step hs he
    subst he
    exact forIndices_one_eq_range w
  exact h _ _ hnat

theorem noteSpacing_spec_witness :
    (1 : Int) ≤ 20
      ∧ noteSpacing 10 20 = max 1 (((10 : Nat) : Int) / 20)
      ∧ 1 ≤ noteSpacing 10 20
      ∧ (((10 : Nat) : Int) ≤ 20 →
          noteSpacing 10 20 = 1 ∧ notePositions 10 20 = List.range 10)
      ∧ noteSpacing 10 20 = 1 :=
  ⟨by decide, noteSpacing_spec 10 20 (by decide)⟩

/-- C10: for every base frequency `f0 > 0` and scanline length `n > 0`, the
note frequency `f0 * 2 ^ ((i / n * 24) / 12)` computed by
`generateMusicalSamples` is monotonically non-decreasing in the position:
`frequency i1 ≤ frequency i2` for all `0 ≤ i1 < i2 < n`. -/
theorem noteFrequency_mono (f0 : ℝ) (n i1 i2 : Nat) (hf0 : 0 < f0) (hn : 0 < n)
    (h12 : i1 < i2) (_h2n : i2 < n) :
    noteFrequency realMath f0 i1 n = f0 * (2 : ℝ) ^ (((i1 : ℝ) / (n : ℝ) * 24) / 12)
      ∧ noteFrequency realMath f0 i2 n = f0 * (2 : ℝ) ^ (((i2 : ℝ) / (n : ℝ) * 24) / 12)
      ∧ noteFrequency realMath f0 i1 n ≤ noteFrequency realMath f0 i2 n := by
  have hform : ∀ i : Nat, noteFrequency realMath f0 i n
      = f0 * (2 : ℝ) ^ (((i : ℝ) / (n : ℝ) * 24) / 12) := by
    intro i
    simp only [noteFrequency, realMath]
    norm_num
  refine ⟨hform i1, hform i2, ?_⟩
  rw [hform i1, hform i2]
  apply mul_le_mul_of_nonneg_left _ (le_of_lt hf0)
  apply Real.rpow_le_rpow_of_exponent_le (by norm_num)
  have hnpos : (0 : ℝ) < (n : ℝ) := by exact_mod_cast hn
  have hi : (i1 : ℝ) ≤ (i2 : ℝ) := by exact_mod_cast le_of_lt h12
  have hdiv : (i1 : ℝ) / (n : ℝ) ≤ (i2 : ℝ) / (n : ℝ) :=
    div_le_div_of_nonneg_right hi (le_of_lt hnpos)
  linarith

theorem noteFrequency_mono_witness :
    (0 : ℝ) < 440 ∧ 0 < 8 ∧ 2 < 5 ∧ 5 < 8
      ∧ noteFrequency realMath 440 2 8
          = 440 * (2 : ℝ) ^ ((((2 : Nat) : ℝ) / ((8 : Nat) : ℝ) * 24) / 12)
      ∧ noteFrequency realMath 440 5 8
          = 440 * (2 : ℝ) ^ ((((5 : Nat) : ℝ) / ((8 : Nat) : ℝ) * 24) / 12)
      ∧ noteFrequency realMath 440 2 8 ≤ noteFrequency realMath 440 5 8 :=
  ⟨by norm_num, by decide, by decide, by decide,
    noteFrequency_mono 440 8 2 5 (by norm_num) (by decide) (by decide) (by decide)⟩

/-! ## Envelope gain -/

theorem applyEnvelope_eq_mul_gain {K : Type} [LinearOrderedField K]
    (sample position duration : K) :
    applyEnvelope sample position duration = sample * envelopeGain (position / duration) := by
  unfold envelopeGain applyEnvelope
  simp only [div_one, one_mul]
  split_ifs <;> rfl

theorem envelopeGain_real (x : ℝ) :
    envelopeGain x = if x < 1 / 10 then x * 10
      else if x < 3 / 10 then 1 - 3 / 10 * ((x - 1 / 10) * 5)
      else if 4 / 5 < x then 7 / 10 * (1 - (x - 4 / 5) * 5)
      else 7 / 10 := by
  unfold envelopeGain applyEnvelope
  norm_num
  split_ifs <;> ring

theorem envelopeGain_continuousAt_attack : ContinuousAt (envelopeGain : ℝ → ℝ) (1 / 10) := by
  have hc : ContinuousAt (fun x : ℝ => min (x * 10) (1 - 3 / 10 * ((x - 1 / 10) * 5))) (1 / 10) := by
    apply Continuous.continuousAt
    fun_prop
  refine hc.congr ?_
  filter_upwards [Ioo_mem_nhds (by norm_num : (0 : ℝ) < 1 / 10) (by norm_num : (1 / 10 : ℝ) < 3 / 10)]
    with x hx
  rw [envelopeGain_real]
  obtain ⟨h1, h2⟩ := hx
  split_ifs with ha
  · rw [min_eq_left (by linarith)]
  · rw [min_eq_right (by linarith)]

theorem envelopeGain_continuousAt_decay : ContinuousAt (envelopeGain : ℝ → ℝ) (3 / 10) := by
  have hc : ContinuousAt (fun x : ℝ => max (1 - 3 / 10 * ((x - 1 / 10) * 5)) (7 / 10)) (3 / 10) := by
    apply Continuous.continuousAt
    fun_prop
  refine hc.congr ?_
  filter_upwards [Ioo_mem_nhds (by norm_num : (1 / 10 : ℝ) < 3 / 10) (by norm_num : (3 / 10 : ℝ) < 4 / 5)]
    with x hx
  rw [envelopeGain_real]
  obtain ⟨h1, h2⟩ := hx
  rw [if_neg (by linarith)]
  split_ifs with ha hb
  · rw [max_eq_left (by linarith)]
  · linarith
  · rw [max_eq_right (by linarith)]

theorem envelopeGain_continuousAt_release : ContinuousAt (envelopeGain : ℝ → ℝ) (4 / 5) := by
  have hc : ContinuousAt (fun x : ℝ => min (7 / 10) (7 / 10 * (1 - (x - 4 / 5) * 5))) (4 / 5) := by
    apply Continuous.continuousAt
    fun_prop
  refine hc.congr ?_
  filter_upwards [Ioo_mem_nhds (by norm_num : (3 / 10 : ℝ) < 4 / 5) (by norm_num : (4 / 5 : ℝ) < 1)]
    with x hx
  rw [envelopeGain_real]
  obtain ⟨h1, h2⟩ := hx
  rw [if_neg (by linarith), if_neg (by linarith)]
  split_ifs with ha
  · rw [min_eq_right (by linarith)]
  · rw [min_eq_left (by linarith)]

theorem tendsto_sides_of_continuousAt {g : ℝ → ℝ} {a v : ℝ} (hc : ContinuousAt g a)
    (hv : g a = v) :
    g a = v ∧ Filter.Tendsto g (nhdsWithin a (Set.Iio a)) (nhds v)
      ∧ Filter.Tendsto g (nhdsWithin a (Set.Ioi a)) (nhds v) := by
  subst hv
  exact ⟨rfl, hc.tendsto.mono_left nhdsWithin_le_nhds, hc.tendsto.mono_left nhdsWithin_le_nhds⟩

/-- C11: for every `duration > 0`, `applyEnvelope` multiplies the sample by
the gain `envelopeGain (position / duration)`, and that gain is continuous at
the segment boundaries: at `0.1` the value, the left limit and the right
limit are `1`; at `0.3` and at `0.8` they are `0.7`. -/
theorem applyEnvelope_gain_continuous (sample position duration : ℝ)
    (_hd : 0 < duration) :
    applyEnvelope sample position duration
        = sample * envelopeGain (position / duration)
      ∧ (envelopeGain (0.1 : ℝ) = 1
        ∧ Filter.Tendsto (envelopeGain : ℝ → ℝ) (nhdsWithin 0.1 (Set.Iio 0.1)) (nhds 1)
        ∧ Filter.Tendsto (envelopeGain : ℝ → ℝ) (nhdsWithin 0.1 (Set.Ioi 0.1)) (nhds 1))
      ∧ (envelopeGain (0.3 : ℝ) = 0.7
        ∧ Filter.Tendsto (envelopeGain : ℝ → ℝ) (nhdsWithin 0.3 (Set.Iio 0.3)) (nhds 0.7)
        ∧ Filter.Tendsto (envelopeGain : ℝ → ℝ) (nhdsWithin 0.3 (Set.Ioi 0.3)) (nhds 0.7))
      ∧ (envelopeGain (0.8 : ℝ) = 0.7
        ∧ Filter.Tendsto (envelopeGain : ℝ → ℝ) (nhdsWithin 0.8 (Set.Iio 0.8)) (nhds 0.7)
        ∧ Filter.Tendsto (envelopeGain : ℝ → ℝ) (nhdsWithin 0.8 (Set.Ioi 0.8)) (nhds 0.7)) := by
  have e1 : (0.1 : ℝ) = 1 / 10 := by norm_num
  have e3 : (0.3 : ℝ) = 3 / 10 := by norm_num
  have e8 : (0.8 : ℝ) = 4 / 5 := by norm_num
  have e7 : (0.7 : ℝ) = 7 / 10 := by norm_num
  rw [e1, e3, e8, e7]
  refine ⟨applyEnvelope_eq_mul_gain sample position duration, ?_, ?_, ?_⟩
  · apply tendsto_sides_of_continuousAt envelopeGain_continuousAt_attack
    rw [envelopeGain_real]
    norm_num
  · apply tendsto_sides_of_continuousAt envelopeGain_continuousAt_decay
    rw [envelopeGain_real]
    norm_num
  · apply tendsto_sides_of_continuousAt envelopeGain_continuousAt_release
    rw [envelopeGain_real]
    norm_num

theorem applyEnvelope_gain_continuous_witness :
    (0 : ℝ) < 2
      ∧ applyEnvelope (0.5 : ℝ) 1 2 = 0.5 * envelopeGain ((1 : ℝ) / 2)
      ∧ envelopeGain (0.1 : ℝ) = 1 ∧ envelopeGain (0.3 : ℝ) = 0.7
      ∧ envelopeGain (0.8 : ℝ) = 0.7 :=
  have h := applyEnvelope_gain_continuous 0.5 1 2 (by norm_num)
  ⟨by norm_num, h.1, h.2.1.1, h.2.2.1.1, h.2.2.2.1⟩

/-! ## Pitch and oscillator -/

theorem noteFrequency_real (f0 : ℝ) (i n : Nat) :
    noteFrequency realMath f0 i n = f0 * (2 : ℝ) ^ (((i : ℝ) / (n : ℝ)) * 24 / 12) := by
  simp only [noteFrequency, realMath]
  norm_num

/-- C12: for every base frequency `f0 > 0`, scanline length `n > 0` and
sampled position `0 ≤ i < n`, the note frequency equals
`f0 * 2 ^ (p * 24 / 12)` with `p = i / n`; position `0` maps to exactly `f0`
and every note frequency lies in the two-octave range `[f0, 4 * f0)`. -/
theorem noteFrequency_range (f0 : ℝ) (n i : Nat) (hf0 : 0 < f0) (hn : 0 < n) (hi : i < n) :
    noteFrequency realMath f0 i n = f0 * (2 : ℝ) ^ (((i : ℝ) / (n : ℝ)) * 24 / 12)
      ∧ noteFrequency realMath f0 0 n = f0
      ∧ f0 ≤ noteFrequency realMath f0 i n
      ∧ noteFrequency realMath f0 i n < 4 * f0 := by
  have hnpos : (0 : ℝ) < (n : ℝ) := by exact_mod_cast hn
  have hilt : (i : ℝ) < (n : ℝ) := by exact_mod_cast hi
  have hp0 : (0 : ℝ) ≤ (i : ℝ) / (n : ℝ) := by positivity
  have hp1 : (i : ℝ) / (n : ℝ) < 1 := (div_lt_one hnpos).mpr hilt
  refine ⟨noteFrequency_real f0 i n, ?_, ?_, ?_⟩
  · rw [noteFrequency_real]
    simp
  · rw [noteFrequency_real]
    have h1 : (1 : ℝ) ≤ (2 : ℝ) ^ (((i : ℝ) / (n : ℝ)) * 24 / 12) :=
      Real.one_le_rpow (by norm_num) (by linarith)
    nlinarith
  · rw [noteFrequency_real]
    have h4 : (2 : ℝ) ^ (((i : ℝ) / (n : ℝ)) * 24 / 12) < (2 : ℝ) ^ (2 : ℝ) :=
      Real.rpow_lt_rpow_of_exponent_lt (by norm_num) (by linarith)
    have h22 : (2 : ℝ) ^ (2 : ℝ) = 4 := by
      rw [show (2 : ℝ) = ((2 : ℕ) : ℝ) by norm_num, Real.rpow_natCast]
      norm_num
    rw [h22] at h4
    nlinarith

theorem noteFrequency_range_witness :
    (0 : ℝ) < 440 ∧ 0 < 8 ∧ 3 < 8
      ∧ noteFrequency realMath 440 0 8 = 440
      ∧ (440 : ℝ) ≤ noteFrequency realMath 440 3 8
      ∧ noteFrequency realMath 440 3 8 < 4 * 440 :=
  have h := noteFrequency_range 440 8 3 (by norm_num) (by decide) (by decide)
  ⟨by norm_num, by decide, by decide, h.2.1, h.2.2.1, h.2.2.2⟩

/-- C13: for all real `f`, `A` and `t`, `generateHarmonicWave f A t` is the
fundamental `A * sin (2π f t)` plus the harmonics at 2, 3 and 4 times the
phase with amplitudes `0.5 A`, `0.25 A` and `0.125 A`. -/
theorem generateHarmonicWave_formula (f A t : ℝ) :
    generateHarmonicWave realMath f A t
      = A * Real.sin (2 * Real.pi * f * t)
        + 0.5 * A * Real.sin (2 * (2 * Real.pi * f * t))
        + 0.25 * A * Real.sin (3 * (2 * Real.pi * f * t))
        + 0.125 * A * Real.sin (4 * (2 * Real.pi * f * t)) := by
  have h2 : 4 * Real.pi * f * t = 2 * (2 * Real.pi * f * t) := by ring
  have h3 : 6 * Real.pi * f * t = 3 * (2 * Real.pi * f * t) := by ring
  have h4 : 8 * Real.pi * f * t = 4 * (2 * Real.pi * f * t) := by ring
  simp only [generateHarmonicWave, realMath, h2, h3, h4]

/-! ## Intensity extraction -/

theorem forInt_eq (lo hi : Int) :
    forInt lo hi = (List.range (hi - lo).toNat).map (fun (k : Nat) => lo + (k : Int)) := by
  unfold forInt
  rw [forIndices_one_eq_range]

/-- Result of running `xs[j] = f j` for `j = 0 .. k-1`. -/
theorem foldlM_setAt_range {K : Type} [LinearOrderedField K] (lo : Int) (f : Nat → K)
    (xs : List K) (k : Nat) (hk : k ≤ xs.length) :
    (List.range k).foldlM (fun acc (j : Nat) => setAt acc (lo + (j : Int) - lo) (f j)) xs
      = some (xs.mapIdx (fun j s => if j < k then f j else s)) := by
  induction k with
  | zero =>
    simp only [List.range_zero, List.foldlM_nil, Option.pure_def]
    congr 1
    apply List.ext_getElem <;> simp
  | succ k ih =>
    have hk1 : k < xs.length := hk
    rw [List.range_succ, List.foldlM_append, ih (Nat.le_of_lt hk)]
    simp only [Option.bind_eq_bind, Option.some_bind, List.foldlM_cons, List.foldlM_nil,
      setAt, List.length_mapIdx]
    have hidx : lo + (k : Int) - lo = (k : Int) := by omega
    rw [hidx, if_pos ⟨by omega, by omega⟩]
    simp only [Option.pure_def, Option.bind_some, Int.toNat_ofNat]
    congr 1
    apply List.ext_getElem
    · simp
    · intro j h1 h2
      simp only [List.getElem_set, List.getElem_mapIdx]
      by_cases hjk : k = j
      · subst hjk
        simp
      · rw [if_neg hjk]
        by_cases hlt : j < k
        · have : j < k + 1 := by omega
          simp [hlt, this]
        · have : ¬ j < k + 1 := by omega
          simp [hlt, this]

theorem pixelIntensity_range (r g b : Nat) (hr : r ≤ 65535) (hg : g ≤ 65535)
    (hb : b ≤ 65535) :
    0 ≤ (pixelIntensity r g b : ℝ) ∧ (pixelIntensity r g b : ℝ) ≤ 1 := by
  have hr' : (r : ℝ) ≤ 65535 := by exact_mod_cast hr
  have hg' : (g : ℝ) ≤ 65535 := by exact_mod_cast hg
  have hb' : (b : ℝ) ≤ 65535 := by exact_mod_cast hb
  have hr0 : (0 : ℝ) ≤ (r : ℝ) := Nat.cast_nonneg r
  have hg0 : (0 : ℝ) ≤ (g : ℝ) := Nat.cast_nonneg g
  have hb0 : (0 : ℝ) ≤ (b : ℝ) := Nat.cast_nonneg b
  unfold pixelIntensity
  constructor
  · apply div_nonneg _ (by norm_num)
    norm_num
    positivity
  · rw [div_le_one (by norm_num)]
    norm_num
    linarith

/-- The scanline computed for a well-formed image: one intensity per column. -/
theorem imageToNoteIntensities_eq {K : Type} [LinearOrderedField K] (img : Image) (row : Int)
    (hwf : img.Bounds.Min.X ≤ img.Bounds.Max.X) :
    imageToNoteIntensities (K := K) img row
      = some ((List.replicate (img.Bounds.Max.X - img.Bounds.Min.X).toNat (0 : K)).mapIdx
          (fun j _ => pixelIntensity (img.At (img.Bounds.Min.X + (j : Int)) row).r
            (img.At (img.Bounds.Min.X + (j : Int)) row).g
            (img.At (img.Bounds.Min.X + (j : Int)) row).b)) := by
  unfold imageToNoteIntensities
  simp only
  rw [if_neg (by omega), forInt_eq, List.foldlM_map]
  rw [foldlM_setAt_range img.Bounds.Min.X
    (fun j => pixelIntensity (img.At (img.Bounds.Min.X + (j : Int)) row).r
            (img.At (img.Bounds.Min.X + (j : Int)) row).g
            (img.At (img.Bounds.Min.X + (j : Int)) row).b) _ _ (by simp)]
  congr 1
  apply List.ext_getElem
  · simp
  · intro j h1 h2
    have hj : j < (img.Bounds.Max.X - img.Bounds.Min.X).toNat := by
      rw [List.length_mapIdx, List.length_replicate] at h1
      exact h1
    rw [List.getElem_mapIdx, List.getElem_mapIdx, if_pos hj]

/-- C14: for an image with well-formed horizontal bounds whose pixels on the
row have 16-bit channel values `r, g, b` in `[0, 65535]`,
`imageToNoteIntensities` returns one value per column (length
`Max.X - Min.X`), the `k`-th being `(0.3 r + 0.59 g + 0.11 b) / 65535` of the
pixel in column `Min.X + k`, and every value lies in `[0, 1]`. -/
theorem imageToNoteIntensities_range (img : Image) (row : Int)
    (hwf : img.Bounds.Min.X ≤ img.Bounds.Max.X)
    (hpix : ∀ x, img.Bounds.Min.X ≤ x → x < img.Bounds.Max.X →
      (img.At x row).r ≤ 65535 ∧ (img.At x row).g ≤ 65535 ∧ (img.At x row).b ≤ 65535) :
    ∃ out : List ℝ, imageToNoteIntensities img row = some out
      ∧ (out.length : Int) = img.Bounds.Max.X - img.Bounds.Min.X
      ∧ (∀ (k : Nat) (hk : k < out.length),
          out[k] = ((0.3 * ((img.At (img.Bounds.Min.X + (k : Int)) row).r : ℝ)
              + 0.59 * ((img.At (img.Bounds.Min.X + (k : Int)) row).g : ℝ)
              + 0.11 * ((img.At (img.Bounds.Min.X + (k : Int)) row).b : ℝ)) / 65535))
      ∧ ∀ v ∈ out, 0 ≤ v ∧ v ≤ 1 := by
  refine ⟨_, imageToNoteIntensities_eq img row hwf, ?_, ?_, ?_⟩
  · rw [List.length_mapIdx, List.length_replicate]
    omega
  · intro k hk
    rw [List.getElem_mapIdx]
    unfold pixelIntensity
    ring
  · intro v hv
    obtain ⟨k, hk, rfl⟩ := List.getElem_of_mem hv
    rw [List.getElem_mapIdx]
    have hk' : k < (img.Bounds.Max.X - img.Bounds.Min.X).toNat := by
      rw [List.length_mapIdx, List.length_replicate] at hk
      exact hk
    obtain ⟨h1, h2, h3⟩ := hpix (img.Bounds.Min.X + (k : Int)) (by omega) (by omega)
    exact pixelIntensity_range _ _ _ h1 h2 h3

/-- The scenario of a lone white pixel: one intensity, within `[0, 1]`. -/
theorem imageToNoteIntensities_range_witness :
    (whiteImage 1 1).Bounds.Min.X ≤ (whiteImage 1 1).Bounds.Max.X
      ∧ ∃ out : List ℝ, imageToNoteIntensities (whiteImage 1 1) 0 = some out
        ∧ (out.length : Int) = (whiteImage 1 1).Bounds.Max.X - (whiteImage 1 1).Bounds.Min.X
        ∧ ∀ v ∈ out, 0 ≤ v ∧ v ≤ 1 := by
  have hwf : (whiteImage 1 1).Bounds.Min.X ≤ (whiteImage 1 1).Bounds.Max.X := by decide
  obtain ⟨out, h1, h2, _, h4⟩ := imageToNoteIntensities_range (whiteImage 1 1) 0 hwf
    (fun x _ _ => by simp [whiteImage])
  exact ⟨hwf, out, h1, h2, h4⟩

/-! ## Totality, sample conversion and scanline row -/

/-- C15: for every intensity sequence (the empty one included), every
`durationMs` in `[500, 5000]`, base frequency in `[220, 880]` and density in
`[1, 20]`, `generateMusicalSamples` runs to completion (no panic: the result
is `some`). The step of the note loop is at least `1`, every visited position
`i` indexes `intensities` in range, every `j` of the sample loop indexes the
buffer in range, and the divisors are non-zero: `density` for
`len / density`, `len` for `i / len` at a visited position, `totalSamples`
for `j / totalSamples`, `durationSec`, and `maxAmplitude` whenever
normalisation divides by it. -/
theorem generateMusicalSamples_total (intensities : List ℝ) (durationMs : Int)
    (baseFreq : ℝ) (density : Int)
    (hd : 500 ≤ durationMs ∧ durationMs ≤ 5000)
    (_hf : 220 ≤ baseFreq ∧ baseFreq ≤ 880)
    (hden : 1 ≤ density ∧ density ≤ 20) :
    ∃ mixed total, mixedSamples realMath intensities durationMs baseFreq density = some mixed
      ∧ generateMusicalSamples realMath intensities durationMs baseFreq density
          = some (normalise realMath mixed)
      ∧ mixed.length = total
      ∧ (total : Int) = totalSamplesOf ℝ durationMs
      ∧ 0 < total
      ∧ density ≠ 0
      ∧ 1 ≤ noteSpacing intensities.length density
      ∧ (∀ i ∈ notePositions intensities.length density,
          (∃ a, intensities[i]? = some a) ∧ (intensities.length : ℝ) ≠ 0)
      ∧ (∀ j ∈ forIndices total 1 Nat.one_pos 0,
          (∃ s, mixed[j]? = some s) ∧ (total : ℝ) ≠ 0)
      ∧ durationSecOf ℝ durationMs ≠ 0
      ∧ (maxAmplitude mixed ≠ 0 ∨ normalise realMath mixed = mixed) := by
  obtain ⟨mixed, hmix, hgen, hlen⟩ := mixedSamples_some realMath intensities durationMs
    baseFreq density (by omega) (by omega)
  have h22 := (totalSamples_bounds (K := ℝ) durationMs hd).2.2.2
  have hpos : 0 < mixed.length := by omega
  refine ⟨mixed, mixed.length, hmix, hgen, rfl, hlen, hpos, by omega, ?_, ?_, ?_, ?_, ?_⟩
  · have h := noteSpacing_toNat_pos intensities.length density
    omega
  · intro i hi
    have hlt := (notePositions_mem _ _ i hi).1
    refine ⟨⟨intensities[i], List.getElem?_eq_getElem hlt⟩, ?_⟩
    have : 0 < intensities.length := by omega
    exact_mod_cast (ne_of_gt this)
  · intro j hj
    have hlt := (forIndices_mem _ _ _ _ j hj).1
    refine ⟨⟨mixed[j], List.getElem?_eq_getElem hlt⟩, ?_⟩
    exact_mod_cast (ne_of_gt hpos)
  · exact ne_of_gt (durationSecOf_pos (K := ℝ) durationMs hd)
  · by_cases hmax : maxAmplitude mixed > 0
    · exact Or.inl (ne_of_gt hmax)
    · right
      unfold normalise
      simp only [if_neg hmax]

/-- A run of C15 with four notes, one of them gated, over `2010` ms. -/
theorem generateMusicalSamples_total_witness :
    ((500 : Int) ≤ 2010 ∧ (2010 : Int) ≤ 5000) ∧ ((220 : ℝ) ≤ 440 ∧ (440 : ℝ) ≤ 880)
      ∧ ((1 : Int) ≤ 3 ∧ (3 : Int) ≤ 20)
      ∧ ∃ mixed total, mixedSamples realMath [1, 0.02, 0.5, 0.75] 2010 440 3 = some mixed
        ∧ generateMusicalSamples realMath [1, 0.02, 0.5, 0.75] 2010 440 3
            = some (normalise realMath mixed)
        ∧ mixed.length = total
        ∧ (total : Int) = totalSamplesOf ℝ 2010
        ∧ 0 < total
        ∧ (3 : Int) ≠ 0
        ∧ 1 ≤ noteSpacing [(1 : ℝ), 0.02, 0.5, 0.75].length 3
        ∧ (∀ i ∈ notePositions [(1 : ℝ), 0.02, 0.5, 0.75].length 3,
            (∃ a, [(1 : ℝ), 0.02, 0.5, 0.75][i]? = some a)
              ∧ ([(1 : ℝ), 0.02, 0.5, 0.75].length : ℝ) ≠ 0)
        ∧ (∀ j ∈ forIndices total 1 Nat.one_pos 0,
            (∃ s, mixed[j]? = some s) ∧ (total : ℝ) ≠ 0)
        ∧ durationSecOf ℝ 2010 ≠ 0
        ∧ (maxAmplitude mixed ≠ 0 ∨ normalise realMath mixed = mixed) :=
  ⟨⟨by decide, by decide⟩, ⟨by norm_num, by norm_num⟩, ⟨by decide, by decide⟩,
    generateMusicalSamples_total [1, 0.02, 0.5, 0.75] 2010 440 3
      ⟨by decide, by decide⟩ ⟨by norm_num, by norm_num⟩ ⟨by decide, by decide⟩⟩

/-- C16: for every real sample value, however far outside `[-1, 1]`, the
integer that `WriteFile` converts to `int16` lies in `[-32767, 32767]`, so
the conversion does not wrap and `-32768` is never written; every value
decoded from the payload of a written file is in that range. -/
theorem sampleToInt_no_overflow (sample : ℝ) (w : Writer) (data : List ℝ) :
    (-32767 ≤ sampleToInt sample ∧ sampleToInt sample ≤ 32767)
      ∧ int16 (sampleToInt sample) = sampleToInt sample
      ∧ int16 (sampleToInt sample) ≠ -32768
      ∧ (∀ v ∈ decodeInt16s ((w.WriteFile data).drop 44), -32767 ≤ v ∧ v ≤ 32767)
      ∧ sampleToInt (1000000 : ℝ) = 32767
      ∧ sampleToInt (-1000000 : ℝ) = -32767 := by
  obtain ⟨h1, h2⟩ := sampleToInt_range sample
  have hid := int16_of_range (sampleToInt sample) (by omega) (by omega)
  refine ⟨⟨h1, h2⟩, hid, by rw [hid]; omega, ?_, ?_, ?_⟩
  · intro v hv
    rw [WriteFile_drop_header, decodeInt16s_payload] at hv
    obtain ⟨s, _, rfl⟩ := List.mem_map.mp hv
    exact sampleToInt_range s
  · exact sampleToInt_eq_of_exact _ 32767 0 _ (by norm_num)
      (by rw [abs_lt]; constructor <;> norm_num)
      (truncToInt_of_nonneg (by norm_num) (by norm_num) (by norm_num))
  · exact sampleToInt_eq_of_exact _ (-32767) 0 _ (by norm_num)
      (by rw [abs_lt]; constructor <;> norm_num)
      (truncToInt_of_neg (by norm_num) (by norm_num) (by norm_num))

theorem wrapInt_of_range (x : Int) (h1 : -2 ^ 63 ≤ x) (h2 : x < 2 ^ 63) : wrapInt x = x := by
  unfold wrapInt
  omega

/-- C17, as stated, fails: for `Min.Y = -2^62 - 1` and `Max.Y = 2^62`, both
64-bit values with `Min.Y < Max.Y`, the subtraction `Max.Y - Min.Y` wraps and
the row is `-2^63`, below `Min.Y`. -/
theorem middleRow_overflow_counterexample :
    (-2 ^ 63 ≤ (-2 ^ 62 - 1 : Int) ∧ (2 ^ 62 : Int) < 2 ^ 63)
      ∧ (-2 ^ 62 - 1 : Int) < 2 ^ 62
      ∧ middleRow (Rectangle.mk (Point.mk 0 (-2 ^ 62 - 1)) (Point.mk 0 (2 ^ 62))) = -2 ^ 63
      ∧ middleRow (Rectangle.mk (Point.mk 0 (-2 ^ 62 - 1)) (Point.mk 0 (2 ^ 62)))
          < (-2 ^ 62 - 1 : Int) := by
  have h : middleRow (Rectangle.mk (Point.mk 0 (-2 ^ 62 - 1)) (Point.mk 0 (2 ^ 62)))
      = -2 ^ 63 := by
    decide
  refine ⟨⟨by decide, by decide⟩, by decide, h, ?_⟩
  rw [h]
  decide

/-- C17 (amended): for every image bounds with 64-bit coordinates,
`Min.Y < Max.Y` and a height `Max.Y - Min.Y` below `2^63` (the subtraction
does not overflow), the row chosen by `convertImageToAudio` is
`Min.Y + (Max.Y - Min.Y) / 2` with integer division and satisfies
`Min.Y ≤ middleRow < Max.Y`. -/
theorem middleRow_in_bounds (bounds : Rectangle) (hy : bounds.Min.Y < bounds.Max.Y)
    (hmin : -2 ^ 63 ≤ bounds.Min.Y) (hmax : bounds.Max.Y < 2 ^ 63)
    (hheight : bounds.Max.Y - bounds.Min.Y < 2 ^ 63) :
    middleRow bounds = bounds.Min.Y + (bounds.Max.Y - bounds.Min.Y) / 2
      ∧ bounds.Min.Y ≤ middleRow bounds ∧ middleRow bounds < bounds.Max.Y := by
  have htdiv : Int.tdiv (bounds.Max.Y - bounds.Min.Y) 2 = (bounds.Max.Y - bounds.Min.Y) / 2 :=
    Int.tdiv_eq_ediv (by omega) (by decide)
  unfold middleRow
  rw [wrapInt_of_range (bounds.Max.Y - bounds.Min.Y) (by omega) hheight, htdiv,
    wrapInt_of_range _ (by omega) (by omega)]
  omega

theorem middleRow_in_bounds_witness :
    (whiteImage 4 7).Bounds.Min.Y < (whiteImage 4 7).Bounds.Max.Y
      ∧ -2 ^ 63 ≤ (whiteImage 4 7).Bounds.Min.Y
      ∧ (whiteImage 4 7).Bounds.Max.Y < 2 ^ 63
      ∧ (whiteImage 4 7).Bounds.Max.Y - (whiteImage 4 7).Bounds.Min.Y < 2 ^ 63
      ∧ middleRow (whiteImage 4 7).Bounds
          = (whiteImage 4 7).Bounds.Min.Y
            + ((whiteImage 4 7).Bounds.Max.Y - (whiteImage 4 7).Bounds.Min.Y) / 2
      ∧ (whiteImage 4 7).Bounds.Min.Y ≤ middleRow (whiteImage 4 7).Bounds
      ∧ middleRow (whiteImage 4 7).Bounds < (whiteImage 4 7).Bounds.Max.Y :=
  ⟨by decide, by decide, by decide, by decide,
    middleRow_in_bounds (whiteImage 4 7).Bounds (by decide) (by decide) (by decide)
      (by decide)⟩

/-! ## Sliders and brightness scaling -/

theorem clamp_range (value lo hi : Int) (h : lo ≤ hi) :
    lo ≤ clamp value lo hi ∧ clamp value lo hi ≤ hi := by
  unfold clamp
  split_ifs <;> omega

theorem clamp_of_mem (value lo hi : Int) (h1 : lo ≤ value) (h2 : value ≤ hi) :
    clamp value lo hi = value := by
  unfold clamp
  rw [if_neg (by omega), if_neg (by omega)]

/-- Result of one call of `updateSlider` on a slider of non-zero width, from
the inputs: the slider drags when the button is down and the cursor is over
it or it was already dragging. -/
theorem updateSlider_eq (s : Slider ℝ) (mouse : Mouse) (hw : s.Width ≠ 0) :
    updateSlider s mouse
      = if mouse.pressed = true ∧ (sliderHit s mouse = true ∨ s.Dragging = true) then
          some { s with Dragging := true,
                        Value := clamp (dragValue s mouse.mx) s.Min s.Max }
        else
          some { s with Dragging := false } := by
  obtain ⟨X, Y, W, V, lo, hi, D⟩ := s
  have hw' : W ≠ 0 := hw
  unfold updateSlider
  cases hp : mouse.pressed <;> cases hh : sliderHit (Slider.mk X Y W V lo hi D) mouse <;>
    cases D <;> simp [hw', hh, dragValue]

/-- One call of `updateSlider` on a slider of non-zero width. -/
theorem updateSlider_step (s : Slider ℝ) (mouse : Mouse) (hw : s.Width ≠ 0) :
    ∃ s', updateSlider s mouse = some s'
      ∧ s'.Min = s.Min ∧ s'.Max = s.Max ∧ s'.Width = s.Width
      ∧ (s'.Dragging = true → s'.Value = clamp (dragValue s mouse.mx) s.Min s.Max)
      ∧ (s'.Dragging = false → s'.Value = s.Value) := by
  rw [updateSlider_eq s mouse hw]
  split_ifs
  · exact ⟨_, rfl, rfl, rfl, rfl, fun _ => rfl, fun h => by simp at h⟩
  · exact ⟨_, rfl, rfl, rfl, rfl, fun h => by simp at h, fun _ => rfl⟩

/-- The bounds invariant is kept along any sequence of ticks. -/
theorem updateSliderTicks_invariant (ticks : List Mouse) (s : Slider ℝ)
    (hb : s.Min ≤ s.Max) (hw : s.Width ≠ 0) (hv : s.Min ≤ s.Value ∧ s.Value ≤ s.Max) :
    ∃ s', updateSliderTicks s ticks = some s'
      ∧ s'.Min = s.Min ∧ s'.Max = s.Max ∧ s'.Width = s.Width
      ∧ s.Min ≤ s'.Value ∧ s'.Value ≤ s.Max := by
  induction ticks generalizing s with
  | nil => exact ⟨s, rfl, rfl, rfl, rfl, hv.1, hv.2⟩
  | cons mouse rest ih =>
    obtain ⟨s1, hs1, hmin, hmax, hwidth, hdrag, hkeep⟩ := updateSlider_step s mouse hw
    have hv1 : s1.Min ≤ s1.Value ∧ s1.Value ≤ s1.Max := by
      rw [hmin, hmax]
      cases hd : s1.Dragging with
      | true =>
        rw [hdrag hd]
        exact clamp_range _ _ _ hb
      | false =>
        rw [hkeep hd]
        exact hv
    obtain ⟨s', hs', h1, h2, h3, h4, h5⟩ := ih s1 (by rw [hmin, hmax]; exact hb)
      (by rw [hwidth]; exact hw) hv1
    refine ⟨s', ?_, by rw [h1, hmin], by rw [h2, hmax], by rw [h3, hwidth], ?_, ?_⟩
    · unfold updateSliderTicks
      rw [List.foldlM_cons, hs1]
      exact hs'
    · rw [← hmin]; exact h4
    · rw [← hmax]; exact h5


section Scaling

variable {K : Type} [LinearOrderedField K]

theorem generateHarmonicWave_scale (m : MathOps K) (c frequency amplitude t : K) :
    generateHarmonicWave m frequency (c * amplitude) t
      = c * generateHarmonicWave m frequency amplitude t := by
  simp only [generateHarmonicWave]
  ring

theorem applyEnvelope_scale (c sample position duration : K) :
    applyEnvelope (c * sample) position duration
      = c * applyEnvelope sample position duration := by
  unfold applyEnvelope
  simp only
  split_ifs <;> ring

theorem noteSample_scale (m : MathOps K) (c frequency amplitude durationSec : K)
    (total j : Nat) :
    noteSample m frequency (c * amplitude) durationSec total j
      = c * noteSample m frequency amplitude durationSec total j := by
  simp only [noteSample]
  rw [generateHarmonicWave_scale, applyEnvelope_scale]

/-- Mixing a note of scaled amplitude into a scaled buffer scales the
result. -/
theorem mixNote_scale (m : MathOps K) (c frequency amplitude durationSec : K)
    (total : Nat) (samples : List K) (hlen : samples.length = total) :
    mixNote m frequency (c * amplitude) durationSec total (samples.map (fun s => c * s))
      = (mixNote m frequency amplitude durationSec total samples).map
          (List.map (fun s => c * s)) := by
  rw [mixNote_eq _ _ _ _ _ _ hlen, mixNote_eq _ _ _ _ _ _ (by rw [List.length_map, hlen])]
  simp only [Option.map_some']
  congr 1
  apply List.ext_getElem
  · simp
  · intro j h1 h2
    simp only [List.getElem_mapIdx, List.getElem_map]
    rw [noteSample_scale]
    ring

/-- One iteration of the note loop on a scaled scanline and a scaled
buffer, when the silence gate decides alike. -/
theorem noteBody_scale (m : MathOps K) (c : K) (intensities : List K)
    (durationSec baseFreq : K) (total : Nat) (samples : List K) (i : Nat)
    (hlen : samples.length = total)
    (hgate : ∀ a, intensities[i]? = some a → (a < 0.05 ↔ c * a < 0.05)) :
    noteBody m (intensities.map (fun a => c * a)) durationSec baseFreq total
        (samples.map (fun s => c * s)) i
      = (noteBody m intensities durationSec baseFreq total samples i).map
          (List.map (fun s => c * s)) := by
  unfold noteBody
  rw [List.getElem?_map, List.length_map]
  cases ha : intensities[i]? with
  | none => rfl
  | some a =>
    simp only [Option.map_some']
    by_cases hq : a < 0.05
    · rw [if_pos hq, if_pos ((hgate a ha).mp hq)]
      rfl
    · rw [if_neg hq, if_neg (fun h => hq ((hgate a ha).mpr h))]
      exact mixNote_scale m c _ a durationSec total samples hlen

/-- The note loop on a scaled scanline and a scaled buffer. -/
theorem foldlM_noteBody_scale (m : MathOps K) (c : K) (intensities : List K)
    (durationSec baseFreq : K) (total : Nat) (positions : List Nat)
    (hpos : ∀ i ∈ positions, i < intensities.length)
    (hgate : ∀ i ∈ positions, ∀ a, intensities[i]? = some a → (a < 0.05 ↔ c * a < 0.05))
    (samples : List K) (hlen : samples.length = total) :
    positions.foldlM (noteBody m (intensities.map (fun a => c * a)) durationSec baseFreq
        total) (samples.map (fun s => c * s))
      = (positions.foldlM (noteBody m intensities durationSec baseFreq total) samples).map
          (List.map (fun s => c * s)) := by
  induction positions generalizing samples with
  | nil => rfl
  | cons i rest ih =>
    subst hlen
    obtain ⟨mid, hmid, hmidlen⟩ := noteBody_length m intensities durationSec baseFreq
      samples i (hpos i (List.mem_cons_self _ _))
    rw [List.foldlM_cons, List.foldlM_cons,
      noteBody_scale m c intensities durationSec baseFreq _ samples i rfl
        (hgate i (List.mem_cons_self _ _)), hmid]
    exact ih (fun j hj => hpos j (List.mem_cons_of_mem _ hj))
      (fun j hj => hgate j (List.mem_cons_of_mem _ hj)) mid hmidlen

theorem peakFold_scale (c : K) (hc : 0 < c) (l : List K) (init : K) :
    (l.map (fun s => c * s)).foldl (fun mx s => if |s| > mx then |s| else mx) (c * init)
      = c * l.foldl (fun mx s => if |s| > mx then |s| else mx) init := by
  induction l generalizing init with
  | nil => rfl
  | cons a rest ih =>
    rw [List.map_cons, List.foldl_cons, List.foldl_cons]
    have habs : |c * a| = c * |a| := by rw [abs_mul, abs_of_pos hc]
    rw [habs]
    by_cases h : |a| > init
    · rw [if_pos h, if_pos (mul_lt_mul_of_pos_left h hc)]
      exact ih _
    · rw [if_neg h, if_neg (fun h2 => h (lt_of_mul_lt_mul_left h2 (le_of_lt hc)))]
      exact ih _

theorem maxAmplitude_scale (c : K) (hc : 0 < c) (l : List K) :
    maxAmplitude (l.map (fun s => c * s)) = c * maxAmplitude l := by
  unfold maxAmplitude
  have h := peakFold_scale c hc l 0.0
  have h0 : c * (0.0 : K) = 0.0 := by norm_num
  rw [h0] at h
  exact h

end Scaling

/-- Normalisation removes a positive common factor. -/
theorem normalise_scale (c : ℝ) (hc : 0 < c) (l : List ℝ) :
    normalise realMath (l.map (fun s => c * s)) = normalise realMath l := by
  unfold normalise
  simp only [maxAmplitude_scale c hc l]
  by_cases hpos : maxAmplitude l > 0
  · rw [if_pos hpos, if_pos (mul_pos hc hpos), List.map_map]
    apply List.map_congr_left
    intro s _
    simp only [Function.comp]
    rw [mul_div_mul_left _ _ (ne_of_gt hc)]
  · have hzero := eq_zero_of_maxAmplitude_not_pos l hpos
    have hmax : maxAmplitude l = 0 := maxAmplitude_eq_zero_of_all_zero l hzero
    rw [if_neg hpos, hmax, mul_zero, if_neg (lt_irrefl 0)]
    calc l.map (fun s => c * s) = l.map id :=
          List.map_congr_left (fun s hs => by rw [hzero s hs, mul_zero]; rfl)
      _ = l := List.map_id l

/-- C19: for every `c > 0` and intensity sequence such that each visited
position passes the silence gate in the sequence exactly when it passes it in
the sequence scaled by `c`, and all valid `durationMs`, `baseFreq` and
`density`, `generateMusicalSamples` returns the same buffer for the scaled
sequence as for the original one (over real arithmetic). -/
theorem generateMusicalSamples_scale_invariant (intensities : List ℝ) (c : ℝ)
    (durationMs : Int) (baseFreq : ℝ) (density : Int)
    (hc : 0 < c)
    (hgate : ∀ i ∈ notePositions intensities.length density, ∀ a,
      intensities[i]? = some a → (0.05 ≤ a ↔ 0.05 ≤ c * a))
    (hd : 500 ≤ durationMs ∧ durationMs ≤ 5000)
    (_hf : 220 ≤ baseFreq ∧ baseFreq ≤ 880)
    (hden : 1 ≤ density ∧ density ≤ 20) :
    ∃ buffer, generateMusicalSamples realMath intensities durationMs baseFreq density
        = some buffer
      ∧ generateMusicalSamples realMath (intensities.map (fun a => c * a)) durationMs
          baseFreq density = some buffer := by
  obtain ⟨mixed, hmix, hgen, _⟩ := mixedSamples_some realMath intensities durationMs
    baseFreq density (by omega) (by omega)
  refine ⟨_, hgen, ?_⟩
  have hmixc : mixedSamples realMath (intensities.map (fun a => c * a)) durationMs baseFreq
      density = some (mixed.map (fun s => c * s)) := by
    rw [mixedSamples_eq _ _ _ _ _ (by omega) (by omega)] at hmix ⊢
    rw [List.length_map]
    have hzero : List.replicate (totalSamplesOf ℝ durationMs).toNat (0 : ℝ)
        = (List.replicate (totalSamplesOf ℝ durationMs).toNat (0 : ℝ)).map
            (fun s => c * s) := by
      rw [List.map_replicate, mul_zero]
    rw [hzero, foldlM_noteBody_scale realMath c intensities _ baseFreq _ _
      (fun i hi => (notePositions_mem _ _ i hi).1)
      (fun i hi a ha => by
        have h := hgate i hi a ha
        constructor
        · intro hlt
          exact lt_of_not_le (fun hge => absurd hlt (not_lt.mpr (h.mpr hge)))
        · intro hlt
          exact lt_of_not_le (fun hge => absurd hlt (not_lt.mpr (h.mp hge))))
      _ (List.length_replicate _ _), hmix]
    rfl
  unfold generateMusicalSamples
  rw [hmixc]
  simp only [Option.map_some']
  rw [normalise_scale c hc mixed]


theorem generateMusicalSamples_scale_invariant_witness :
    (0 : ℝ) < 0.5
      ∧ ∃ buffer, generateMusicalSamples realMath [1, 0.5] 500 440 2 = some buffer
        ∧ generateMusicalSamples realMath ([1, 0.5].map (fun a => 0.5 * a)) 500 440 2
            = some buffer := by
  have hgate : ∀ i ∈ notePositions [(1 : ℝ), 0.5].length 2, ∀ a,
      [(1 : ℝ), 0.5][i]? = some a → (0.05 ≤ a ↔ 0.05 ≤ 0.5 * a) := by
    intro i _ a ha
    have hmem := List.getElem?_mem ha
    simp only [List.mem_cons, List.mem_singleton, List.not_mem_nil, or_false] at hmem
    rcases hmem with rfl | rfl <;> norm_num
  exact ⟨by norm_num,
    generateMusicalSamples_scale_invariant [1, 0.5] 0.5 500 440 2 (by norm_num) hgate
      ⟨by decide, by decide⟩ ⟨by norm_num, by norm_num⟩ ⟨by decide, by decide⟩⟩

/-- C18: for every slider with `Min ≤ Max` and `Width ≠ 0` and every cursor
position, when the button is down and the cursor is over the slider (or the
slider is already dragging) `updateSlider` stores `clamp newValue Min Max`
and otherwise leaves the value; the stored value lies in `[Min, Max]` and
equals `newValue` when that is already in `[Min, Max]`; hence a slider that
starts with `Min ≤ Value ≤ Max` keeps it over every sequence of updates. -/
theorem updateSlider_clamped (s : Slider ℝ) (mouse : Mouse) (ticks : List Mouse)
    (hb : s.Min ≤ s.Max) (hw : s.Width ≠ 0) :
    (mouse.pressed = true ∧ (sliderHit s mouse = true ∨ s.Dragging = true) →
        updateSlider s mouse
          = some { s with Dragging := true,
                          Value := clamp (dragValue s mouse.mx) s.Min s.Max })
      ∧ (¬ (mouse.pressed = true ∧ (sliderHit s mouse = true ∨ s.Dragging = true)) →
          updateSlider s mouse = some { s with Dragging := false })
      ∧ (s.Min ≤ clamp (dragValue s mouse.mx) s.Min s.Max
          ∧ clamp (dragValue s mouse.mx) s.Min s.Max ≤ s.Max)
      ∧ (s.Min ≤ dragValue s mouse.mx ∧ dragValue s mouse.mx ≤ s.Max →
          clamp (dragValue s mouse.mx) s.Min s.Max = dragValue s mouse.mx)
      ∧ (s.Min ≤ s.Value ∧ s.Value ≤ s.Max →
          ∃ s', updateSliderTicks s ticks = some s' ∧ s'.Min = s.Min ∧ s'.Max = s.Max
            ∧ s.Min ≤ s'.Value ∧ s'.Value ≤ s.Max) := by
  refine ⟨?_, ?_, clamp_range _ _ _ hb, fun h => clamp_of_mem _ _ _ h.1 h.2, ?_⟩
  · intro h
    rw [updateSlider_eq s mouse hw, if_pos h]
  · intro h
    rw [updateSlider_eq s mouse hw, if_neg h]
  · intro hv
    obtain ⟨s', hs', h1, h2, _, h4, h5⟩ := updateSliderTicks_invariant ticks s hb hw hv
    exact ⟨s', hs', h1, h2, h4, h5⟩

theorem LengthSlider_drag :
    sliderHit (LengthSlider : Slider ℝ) { pressed := true, mx := 150, my := 100 } = true
      ∧ dragValue (LengthSlider : Slider ℝ) 150 = 1625 := by
  have hX : truncToInt (100 : ℝ) = 100 :=
    truncToInt_of_nonneg (by norm_num) (by norm_num) (by norm_num)
  constructor
  · simp only [sliderHit, LengthSlider, NewSlider, hX]
    decide
  · simp only [dragValue, LengthSlider, NewSlider, hX]
    decide

/-- The duration slider of `main` (bounds `[500, 5000]`, initial value `2000`):
a press at `x = 150` over the slider stores `1625`, and the value stays
within the bounds over a drag far to the right and a release. -/
theorem updateSlider_clamped_witness :
    (LengthSlider : Slider ℝ).Min ≤ (LengthSlider : Slider ℝ).Max
      ∧ (LengthSlider : Slider ℝ).Width ≠ 0
      ∧ ((true = true ∧ (sliderHit (LengthSlider : Slider ℝ)
            { pressed := true, mx := 150, my := 100 } = true
          ∨ (LengthSlider : Slider ℝ).Dragging = true))
        ∧ updateSlider (LengthSlider : Slider ℝ) { pressed := true, mx := 150, my := 100 }
          = some { (LengthSlider : Slider ℝ) with Dragging := true, Value := 1625 })
      ∧ (((LengthSlider : Slider ℝ).Min ≤ (LengthSlider : Slider ℝ).Value
          ∧ (LengthSlider : Slider ℝ).Value ≤ (LengthSlider : Slider ℝ).Max)
        ∧ ∃ s', updateSliderTicks (LengthSlider : Slider ℝ)
              [{ pressed := true, mx := 150, my := 100 },
               { pressed := true, mx := 9000, my := 100 },
               { pressed := false, mx := 0, my := 0 }] = some s'
            ∧ s'.Min = (LengthSlider : Slider ℝ).Min
            ∧ s'.Max = (LengthSlider : Slider ℝ).Max
            ∧ (LengthSlider : Slider ℝ).Min ≤ s'.Value
            ∧ s'.Value ≤ (LengthSlider : Slider ℝ).Max) := by
  have hb : (LengthSlider : Slider ℝ).Min ≤ (LengthSlider : Slider ℝ).Max := by
    simp [LengthSlider, NewSlider]
  have hw : (LengthSlider : Slider ℝ).Width ≠ 0 := by
    simp [LengthSlider, NewSlider]
  have hv : (LengthSlider : Slider ℝ).Min ≤ (LengthSlider : Slider ℝ).Value
      ∧ (LengthSlider : Slider ℝ).Value ≤ (LengthSlider : Slider ℝ).Max := by
    simp [LengthSlider, NewSlider]
  obtain ⟨hhit, hval⟩ := LengthSlider_drag
  have hpre : (true = true ∧ (sliderHit (LengthSlider : Slider ℝ)
      { pressed := true, mx := 150, my := 100 } = true
      ∨ (LengthSlider : Slider ℝ).Dragging = true)) := ⟨rfl, Or.inl hhit⟩
  obtain ⟨h1, _, _, h4, h5⟩ := updateSlider_clamped (LengthSlider : Slider ℝ)
    { pressed := true, mx := 150, my := 100 }
    [{ pressed := true, mx := 150, my := 100 },
     { pressed := true, mx := 9000, my := 100 },
     { pressed := false, mx := 0, my := 0 }] hb hw
  refine ⟨hb, hw, ⟨hpre, ?_⟩, hv, h5 hv⟩
  have hclamp := h4 (by
    simp only [Mouse.mx, hval]
    simp [LengthSlider, NewSlider])
  rw [h1 hpre, hclamp]
  simp only [Mouse.mx, hval]

/-! ## Dependence on the sampled positions -/

/-- Two loop bodies that agree on every element of the list give the same
fold. -/
theorem foldlM_congr_mem {α β : Type} (f g : β → α → Option β) (l : List α)
    (h : ∀ a ∈ l, ∀ b, f b a = g b a) (init : β) :
    l.foldlM f init = l.foldlM g init := by
  induction l generalizing init with
  | nil => rfl
  | cons a rest ih =>
    rw [List.foldlM_cons, List.foldlM_cons, h a (List.mem_cons_self _ _) init]
    cases g init a with
    | none => rfl
    | some b => exact ih (fun x hx => h x (List.mem_cons_of_mem _ hx)) b

/-- The body of the note loop reads the scanline only through its length and
the intensity at the visited position. -/
theorem noteBody_congr {K : Type} [LinearOrderedField K] (m : MathOps K)
    (xs ys : List K) (durationSec baseFreq : K) (total : Nat) (samples : List K) (i : Nat)
    (hlen : xs.length = ys.length) (hi : xs[i]? = ys[i]?) :
    noteBody m xs durationSec baseFreq total samples i
      = noteBody m ys durationSec baseFreq total samples i := by
  unfold noteBody
  rw [hi, hlen]

theorem mixedSamples_congr {K : Type} [LinearOrderedField K] [FloorRing K] (m : MathOps K)
    (xs ys : List K) (durationMs : Int) (baseFreq : K) (density : Int)
    (hlen : xs.length = ys.length)
    (hagree : ∀ i ∈ notePositions xs.length density, xs[i]? = ys[i]?) :
    mixedSamples m xs durationMs baseFreq density
      = mixedSamples m ys durationMs baseFreq density := by
  unfold mixedSamples
  simp only
  split_ifs
  · rfl
  · rfl
  · rw [← hlen]
    exact foldlM_congr_mem _ _ _
      (fun i hi samples => noteBody_congr m xs ys _ _ _ samples i hlen (hagree i hi)) _

/-- C20: for any two intensity sequences of equal length that agree at
every index `i` with `i mod noteSpacing = 0`, where
`noteSpacing = max 1 (len / density)`, and the same `durationMs`, `baseFreq`
and `density ≥ 1`, `generateMusicalSamples` gives the same result; for
`durationMs ≥ 0` that result is a buffer. -/
theorem generateMusicalSamples_depends_on_sampled (xs ys : List ℝ) (durationMs : Int)
    (baseFreq : ℝ) (density : Int)
    (hlen : xs.length = ys.length) (hden : 1 ≤ density)
    (hagree : ∀ i, i % max 1 (xs.length / density.toNat) = 0 → xs[i]? = ys[i]?) :
    generateMusicalSamples realMath xs durationMs baseFreq density
        = generateMusicalSamples realMath ys durationMs baseFreq density
      ∧ (0 ≤ durationMs →
          ∃ buffer, generateMusicalSamples realMath xs durationMs baseFreq density
              = some buffer
            ∧ generateMusicalSamples realMath ys durationMs baseFreq density
              = some buffer) := by
  have hmix : mixedSamples realMath xs durationMs baseFreq density
      = mixedSamples realMath ys durationMs baseFreq density := by
    apply mixedSamples_congr realMath xs ys durationMs baseFreq density hlen
    intro i hi
    apply hagree
    rw [← noteSpacing_toNat xs.length density hden]
    exact (notePositions_mem _ _ i hi).2
  have heq : generateMusicalSamples realMath xs durationMs baseFreq density
      = generateMusicalSamples realMath ys durationMs baseFreq density := by
    unfold generateMusicalSamples
    rw [hmix]
  refine ⟨heq, ?_⟩
  intro hd
  obtain ⟨mixed, _, hgen, _⟩ := mixedSamples_some realMath xs durationMs baseFreq density
    hd (by omega)
  exact ⟨_, hgen, by rw [← heq]; exact hgen⟩

theorem generateMusicalSamples_depends_on_sampled_witness :
    [(1 : ℝ), 0.2, 0.3, 0.4].length = [(1 : ℝ), 0.9, 0.3, 0.7].length ∧ (1 : Int) ≤ 2
      ∧ generateMusicalSamples realMath [1, 0.2, 0.3, 0.4] 500 440 2
        = generateMusicalSamples realMath [1, 0.9, 0.3, 0.7] 500 440 2 := by
  have hagree : ∀ i, i % max 1 ([(1 : ℝ), 0.2, 0.3, 0.4].length / (2 : Int).toNat) = 0 →
      [(1 : ℝ), 0.2, 0.3, 0.4][i]? = [(1 : ℝ), 0.9, 0.3, 0.7][i]? := by
    intro i hi
    have h2 : i % 2 = 0 := hi
    match i, h2 with
    | 0, _ => rfl
    | 1, h => exact absurd h (by decide)
    | 2, _ => rfl
    | 3, h => exact absurd h (by decide)
    | (k + 4), _ => rfl
  exact ⟨rfl, by decide,
    (generateMusicalSamples_depends_on_sampled [1, 0.2, 0.3, 0.4] [1, 0.9, 0.3, 0.7]
      500 440 2 rfl (by decide) hagree).1⟩

end Img2Sound
